import Mathlib

/-!
Shallow embedding of the orderbook engine (array book, btree book, fixed
decimal, metrics) and proofs about the claims of the specification.

Conventions of the embedding:
* The value type `V` of the books is represented by `Int`: both concrete
  value types of the repository (`FixedDecimal` and the reference decimal)
  are totally ordered by their numeric value, and the book code only
  compares values, tests them against `V::ZERO`, and (in the btree trade
  path) subtracts them with `SubAssign` (saturating 64-bit for
  `FixedDecimal`, embedded as `satSub64`).  `V::MIN`/`V::MAX` are the
  `i64`-backed bounds of `FixedDecimal`.
* `u64`/`usize` become `Nat`, `i64` timestamps become `Int`.
* Rust loops become structurally recursive functions with an explicit
  fuel argument; each call site passes the exact bound that the source
  loop obeys, so the fuel-exhaustion branch is unreachable whenever the
  source loop terminates.
* A Rust function that can panic is embedded with result type `Option`,
  `none` standing for the panic.
-/

namespace Orderbook

/-- Bound of the 64-bit signed integers backing `FixedDecimal`. -/
def i64Min : Int := -(2 ^ 63)

/-- Upper bound of the 64-bit signed integers backing `FixedDecimal`. -/
def i64Max : Int := 2 ^ 63 - 1

/-- Saturating conversion of an exact integer to the `i64` range, the
result of Rust `saturating_add` / `saturating_sub` on the exact sum. -/
def sat64 (x : Int) : Int := max i64Min (min i64Max x)

/-- Two's-complement wrap-around to the `i64` range, the result of the
SIMD `_mm_add_epi64` addition on the exact sum. -/
def wrap64 (x : Int) : Int := (x + 2 ^ 63).emod (2 ^ 64) - 2 ^ 63

/-- Saturating 64-bit subtraction (`i64::saturating_sub`). -/
def satSub64 (a b : Int) : Int := sat64 (a - b)

/-- Side of an event or of a book half (`side.rs`). -/
inductive Side where
  | buy
  | sell
deriving DecidableEq

/-- Translation of `Side::is_buy` (`side.rs`). -/
def Side.isBuy : Side → Bool
  | .buy => true
  | .sell => false

/-- Translation of `Side::opposite` (`side.rs`). -/
def Side.opposite : Side → Side
  | .buy => .sell
  | .sell => .buy

/-- Kind of a market-data event (`event_kind.rs`). -/
inductive EventKind where
  | trade
  | bbo
  | l2
deriving DecidableEq

/-- A price level, `Level<V>` of `level.rs`. -/
structure Level where
  price : Int
  size : Int
deriving DecidableEq

/-- Translation of `Level::bound` (`level.rs`): the sentinel level used in
unused buffer slots. -/
def Level.bound (isMin : Bool) : Level :=
  ⟨if isMin then i64Min else i64Max, 0⟩

/-- A market-data event, `Event<V>` of `event.rs`. -/
structure EventI where
  kind : EventKind
  side : Side
  price : Int
  size : Int
  timestamp : Int
  seq : Nat
deriving DecidableEq

/-- Result of `Buffer::find_index`, Rust `Result<usize, usize>`. -/
inductive FindRes where
  | ok (i : Nat)
  | err (i : Nat)
deriving DecidableEq

/-- The sorted bounded buffer `Buffer<N, V>` of `buffers/buffer.rs`.  The
backing array of length `N` is a list; `len` counts the valid levels and
`cachedFirst` caches slot 0 (`cached_first`). -/
structure Buffer where
  buf : List Level
  limit : Int
  len : Nat
  cachedFirst : Option Level
deriving DecidableEq

/-- Translation of `Buffer::new` (`buffer.rs`): all `N` slots hold the
side's sentinel bound. -/
def Buffer.new (N : Nat) (isBid : Bool) : Buffer :=
  ⟨List.replicate N (Level.bound isBid), if isBid then i64Min else i64Max, 0, none⟩

/-- Read of slot `i` (`get_unchecked`); callers guarantee `i < len`. -/
def Buffer.getL (b : Buffer) (i : Nat) : Level := b.buf.getD i ⟨0, 0⟩

/-- Translation of `Buffer::invalidate_cache` (`buffer.rs`). -/
def Buffer.invalidateCache (b : Buffer) : Buffer :=
  { b with cachedFirst :=
      if 0 < b.len then
        (if (b.getL 0).price ≠ b.limit then some (b.getL 0) else none)
      else none }

/-- Translation of `Buffer::move_back` (`buffer.rs`): close the gap at
`start`, write the sentinel into the last valid slot, shrink `len`. -/
def Buffer.moveBack (b : Buffer) (start : Nat) : Buffer :=
  if b.len = 0 then b
  else if b.len - 1 ≤ start then
    Buffer.invalidateCache
      { b with buf := b.buf.set (b.len - 1) (Level.bound (b.limit == i64Min)),
               len := b.len - 1 }
  else
    let b2 : Buffer :=
      { b with
        buf := b.buf.take start ++ (b.buf.drop (start + 1)).take (b.len - 1 - start)
               ++ [Level.bound (b.limit == i64Min)] ++ b.buf.drop b.len,
        len := b.len - 1 }
    if start = 0 then b2.invalidateCache else b2

/-- Translation of `Buffer::remove` (`buffer.rs`); also returns the
removed price. -/
def Buffer.removeAt (b : Buffer) (index : Nat) : Buffer × Int :=
  let removed := (b.getL index).price
  let b2 : Buffer := { b with buf := b.buf.set index (Level.bound (b.limit == i64Min)) }
  (b2.moveBack index, removed)

/-- Translation of `Buffer::first` (`buffer.rs`): the cached first slot. -/
def Buffer.first (b : Buffer) : Option Level := b.cachedFirst

/-- Translation of `Buffer::insert` (`buffer.rs`).  When the buffer is
full and `index < len` the Rust `ptr::copy` writes one slot past the
array; the embedding drops the overflowing last element, which is what
happens to the in-bounds slots. -/
def Buffer.insertAt (N : Nat) (b : Buffer) (index : Nat) (level : Level) : Buffer :=
  if N ≤ index then b
  else if index = b.len then
    Buffer.invalidateCache { b with buf := b.buf.set b.len level, len := b.len + 1 }
  else if index = 0 then
    Buffer.invalidateCache
      { b with buf := (level :: (b.buf.take b.len ++ b.buf.drop (b.len + 1))).take N,
               len := min (b.len + 1) N }
  else
    let b2 : Buffer :=
      { b with
        buf := (b.buf.take index ++ level ::
                ((b.buf.drop index).take (b.len - index) ++ b.buf.drop (b.len + 1))).take N,
        len := min (b.len + 1) N }
    if index = 0 then b2.invalidateCache else b2

/-- Translation of `Buffer::modify` (`buffer.rs`): overwrite the size at
slot `index`. -/
def Buffer.modifyAt (b : Buffer) (index : Nat) (size : Int) : Buffer :=
  let b2 : Buffer := { b with buf := b.buf.set index ⟨(b.getL index).price, size⟩ }
  if index = 0 then b2.invalidateCache else b2

/-- Loop body of the plain binary search in `Buffer::find_index`
(`buffer.rs`).  The fuel is the initial window width `right - left`; the
window shrinks every iteration so the fuel-exhaustion branch is
unreachable at the call site. -/
def Buffer.searchGo (b : Buffer) (price : Int) (isBid : Bool) :
    Nat → Nat → Nat → FindRes
  | 0, left, _ => .err left
  | fuel + 1, left, right =>
    if left < right then
      let mid := left + (right - left) / 2
      let lp := (b.getL mid).price
      if price = lp then .ok mid
      else if (isBid && decide (lp < price)) || (!isBid && decide (price < lp)) then
        Buffer.searchGo b price isBid fuel left mid
      else
        Buffer.searchGo b price isBid fuel (mid + 1) right
    else .err left

/-- The plain binary search loop of `Buffer::find_index` on the window
`[left, right)`. -/
def Buffer.searchLoop (b : Buffer) (price : Int) (isBid : Bool) (left right : Nat) : FindRes :=
  Buffer.searchGo b price isBid (right - left) left right

/-- Loop body of `Buffer::branchless_binary_search` (`buffer.rs`).  The
fuel is the initial `size`; `size` strictly shrinks each iteration. -/
def Buffer.branchGo (b : Buffer) (price : Int) (isBid : Bool) :
    Nat → Nat → Nat → Nat
  | 0, left, _ => left
  | fuel + 1, left, size =>
    if 1 < size then
      let half := size / 2
      let mid := left + half
      let lp := (b.getL mid).price
      let left2 :=
        if (isBid && decide (price < lp)) || (!isBid && decide (lp < price)) then mid
        else left
      Buffer.branchGo b price isBid fuel left2 (size - half)
    else left

/-- Translation of `Buffer::branchless_binary_search` (`buffer.rs`). -/
def Buffer.branchlessSearch (b : Buffer) (price : Int) (isBid : Bool) : FindRes :=
  let left := Buffer.branchGo b price isBid b.len 0 b.len
  if (b.getL left).price = price then .ok left else .err (left + 1)

/-- Translation of `Buffer::find_index` (`buffer.rs`): fast paths for the
empty buffer and out-of-bounds prices, then the branchless search for
`len ≥ 32` and the plain binary search otherwise. -/
def Buffer.findIndex (b : Buffer) (price : Int) (isBid : Bool) : FindRes :=
  if b.len = 0 then .err 0
  else if isBid then
    if (b.getL 0).price < price then .err 0
    else if price < (b.getL (b.len - 1)).price then .err b.len
    else if 32 ≤ b.len then b.branchlessSearch price isBid
    else b.searchLoop price isBid 0 b.len
  else
    if price < (b.getL 0).price then .err 0
    else if (b.getL (b.len - 1)).price < price then .err b.len
    else if 32 ≤ b.len then b.branchlessSearch price isBid
    else b.searchLoop price isBid 0 b.len

/-- The array book `ArrayOrderbook<N, V>` of `books/array_orderbook.rs`. -/
structure ABook where
  bestBid : Option Level
  bestAsk : Option Level
  bids : Buffer
  asks : Buffer
  ts : Int
  seq : Nat
  hasMoved : Bool
deriving DecidableEq

/-- Translation of `ArrayOrderbook::new`. -/
def ABook.new (N : Nat) : ABook :=
  ⟨none, none, Buffer.new N true, Buffer.new N false, 0, 0, false⟩

/-- The `(buffer, best_price)` pair borrowed by the side match at the top
of each `ArrayOrderbook` mutation method. -/
def ABook.getSide (s : ABook) (side : Side) : Buffer × Option Level :=
  match side with
  | .buy => (s.bids, s.bestBid)
  | .sell => (s.asks, s.bestAsk)

/-- Write back the side's buffer and cached best, the effect of assigning
through the mutable borrows of `getSide`. -/
def ABook.setSide (s : ABook) (side : Side) (b : Buffer) (best : Option Level) : ABook :=
  match side with
  | .buy => { s with bids := b, bestBid := best }
  | .sell => { s with asks := b, bestAsk := best }

/-- Translation of `ArrayOrderbook::process_lvl2` (`array_orderbook.rs`). -/
def ABook.processLvl2 (N : Nat) (s : ABook) (e : EventI) : ABook :=
  let p := s.getSide e.side
  if e.size = 0 then
    match p.1.findIndex e.price e.side.isBuy with
    | .ok toRemove =>
      let r := p.1.removeAt toRemove
      match p.2 with
      | some best =>
        if r.2 = best.price then
          { s.setSide e.side r.1 r.1.first with hasMoved := true }
        else s.setSide e.side r.1 p.2
      | none => s.setSide e.side r.1 p.2
    | .err _ => s
  else
    match p.1.findIndex e.price e.side.isBuy with
    | .ok toModify =>
      let b2 := p.1.modifyAt toModify e.size
      s.setSide e.side b2 (if toModify = 0 then b2.first else p.2)
    | .err toInsert =>
      let b2 := p.1.insertAt N toInsert ⟨e.price, e.size⟩
      s.setSide e.side b2 (if toInsert = 0 then b2.first else p.2)

/-- Translation of `ArrayOrderbook::process_trade` (`array_orderbook.rs`).
Note that the branch for a trade smaller than the resting level calls
`modify(index, event.size)`, storing the traded size itself. -/
def ABook.processTrade (s : ABook) (e : EventI) : ABook :=
  let p := s.getSide e.side
  match p.1.findIndex e.price e.side.isBuy with
  | .ok index =>
    let level := p.1.getL index
    let s2 :=
      if level.size ≤ e.size then
        let r := p.1.removeAt index
        if index = 0 then s.setSide e.side r.1 r.1.first
        else s.setSide e.side r.1 p.2
      else
        s.setSide e.side (p.1.modifyAt index e.size) p.2
    if index = 0 then
      let q := s2.getSide e.side
      s2.setSide e.side q.1 q.1.first
    else s2
  | .err _ => s

/-- The sweep loop at the top of `ArrayOrderbook::process_bbo`: remove the
front level while it is strictly better than the quote price.  The call
site passes fuel `len + 1`, which bounds the loop exactly on states whose
cache is consistent (on a state with a stale non-empty cache and `len = 0`
the Rust loop itself does not terminate). -/
def ABook.sweep (p : Int) (isBid : Bool) : Nat → Buffer → Buffer
  | 0, b => b
  | fuel + 1, b =>
    match b.first with
    | some best =>
      if (isBid && decide (p < best.price)) || (!isBid && decide (best.price < p)) then
        ABook.sweep p isBid fuel (b.removeAt 0).1
      else b
    | none => b

/-- Translation of `ArrayOrderbook::process_bbo` (`array_orderbook.rs`). -/
def ABook.processBBO (N : Nat) (s : ABook) (e : EventI) : ABook :=
  let p := s.getSide e.side
  let b1 := ABook.sweep e.price e.side.isBuy (p.1.len + 1) p.1
  let b2 :=
    if e.size = 0 then
      match b1.findIndex e.price e.side.isBuy with
      | .ok index => (b1.removeAt index).1
      | .err _ => b1
    else
      match b1.findIndex e.price e.side.isBuy with
      | .ok index => b1.modifyAt index e.size
      | .err index => b1.insertAt N index ⟨e.price, e.size⟩
  s.setSide e.side b2 b2.first

/-- Translation of `ArrayOrderbook::process` (`array_orderbook.rs`): the
timestamp gate, the sequence gate, the watermark update and the dispatch
by event kind. -/
def ABook.process (N : Nat) (s : ABook) (e : EventI) : ABook :=
  if e.timestamp < s.ts then s
  else if e.seq = 0 ∨ s.seq = 0 ∨ e.seq = s.seq ∨ s.seq < e.seq then
    let s2 : ABook :=
      { s with ts := e.timestamp, seq := if e.seq ≠ 0 then e.seq else s.seq }
    match e.kind with
    | .trade => s2.processTrade e
    | .bbo => ABook.processBBO N s2 e
    | .l2 => ABook.processLvl2 N s2 e
  else s

/-- The levels stored in a buffer: the first `len` slots. -/
def bufEntries (b : Buffer) : List Level := b.buf.take b.len

/-- The stored prices of a buffer, best first. -/
def bufPrices (b : Buffer) : List Int := (bufEntries b).map Level.price

/-- A `BTreeMap<V, V>` is embedded as an association list strictly sorted
by ascending key, the order in which the btree iterates. -/
def mapInsert : List (Int × Int) → Int → Int → List (Int × Int)
  | [], k, v => [(k, v)]
  | (k0, v0) :: rest, k, v =>
    if k < k0 then (k, v) :: (k0, v0) :: rest
    else if k = k0 then (k, v) :: rest
    else (k0, v0) :: mapInsert rest k v

/-- `BTreeMap::remove` on the sorted association list. -/
def mapErase : List (Int × Int) → Int → List (Int × Int)
  | [], _ => []
  | (k0, v0) :: rest, k =>
    if k = k0 then rest else (k0, v0) :: mapErase rest k

/-- `BTreeMap::get` on the sorted association list. -/
def mapGet : List (Int × Int) → Int → Option Int
  | [], _ => none
  | (k0, v0) :: rest, k => if k = k0 then some v0 else mapGet rest k

/-- The best-of-side recomputation used throughout `btree_orderbook.rs`:
`iter().next_back()` for bids, `iter().next()` for asks. -/
def sideBest (side : Side) (book : List (Int × Int)) : Option Level :=
  match side with
  | .buy => book.getLast?.map (fun kv => ⟨kv.1, kv.2⟩)
  | .sell => book.head?.map (fun kv => ⟨kv.1, kv.2⟩)

/-- The map book `BTreeOrderBook<V>` of `books/btree_orderbook.rs`. -/
structure MBook where
  bestBid : Option Level
  bestAsk : Option Level
  bids : List (Int × Int)
  asks : List (Int × Int)
  ts : Int
  seq : Nat
deriving DecidableEq

/-- Translation of `BTreeOrderBook::new`. -/
def MBook.new : MBook := ⟨none, none, [], [], 0, 0⟩

/-- Translation of `BTreeOrderBook::process_l2` (`btree_orderbook.rs`).
Note the unconditional `self.sequence_id = event.sequence_id` at the top
of the source function. -/
def MBook.processL2 (s : MBook) (e : EventI) : MBook :=
  let s1 : MBook := { s with seq := e.seq }
  match e.side with
  | .buy =>
    let bids := if e.size = 0 then mapErase s1.bids e.price else mapInsert s1.bids e.price e.size
    { s1 with bids := bids, bestBid := sideBest .buy bids }
  | .sell =>
    let asks := if e.size = 0 then mapErase s1.asks e.price else mapInsert s1.asks e.price e.size
    { s1 with asks := asks, bestAsk := sideBest .sell asks }

/-- Translation of `BTreeOrderBook::process_trade` (`btree_orderbook.rs`):
full trades remove the level, smaller trades decrement it with the
saturating `SubAssign`. -/
def MBook.processTrade (s : MBook) (e : EventI) : MBook :=
  match e.side with
  | .buy =>
    let bids :=
      match mapGet s.bids e.price with
      | some size =>
        if size ≤ e.size then mapErase s.bids e.price
        else mapInsert s.bids e.price (satSub64 size e.size)
      | none => s.bids
    { s with bids := bids, bestBid := sideBest .buy bids }
  | .sell =>
    let asks :=
      match mapGet s.asks e.price with
      | some size =>
        if size ≤ e.size then mapErase s.asks e.price
        else mapInsert s.asks e.price (satSub64 size e.size)
      | none => s.asks
    { s with asks := asks, bestAsk := sideBest .sell asks }

/-- Translation of `BTreeOrderBook::process_bbo` (`btree_orderbook.rs`):
`retain` keeps the same-side levels not better than the quote, then the
quote is applied and the best recomputed. -/
def MBook.processBBO (s : MBook) (e : EventI) : MBook :=
  match e.side with
  | .buy =>
    let kept := s.bids.filter (fun kv => decide (kv.1 ≤ e.price))
    let bids := if e.size = 0 then mapErase kept e.price else mapInsert kept e.price e.size
    { s with bids := bids, bestBid := sideBest .buy bids }
  | .sell =>
    let kept := s.asks.filter (fun kv => decide (e.price ≤ kv.1))
    let asks := if e.size = 0 then mapErase kept e.price else mapInsert kept e.price e.size
    { s with asks := asks, bestAsk := sideBest .sell asks }

/-- Translation of `BTreeOrderBook::process` (`btree_orderbook.rs`); in
contrast to the array book, the admission path updates only `ts` and
leaves `sequence_id` to `process_l2`. -/
def MBook.process (s : MBook) (e : EventI) : MBook :=
  if e.timestamp < s.ts then s
  else if e.seq = 0 ∨ s.seq = 0 ∨ e.seq = s.seq ∨ s.seq < e.seq then
    let s2 : MBook := { s with ts := e.timestamp }
    match e.kind with
    | .trade => s2.processTrade e
    | .bbo => s2.processBBO e
    | .l2 => s2.processL2 e
  else s

/-- The fixed-point decimal `FixedDecimal` of `decimals/fixed_decimal.rs`:
a raw 64-bit signed integer scaled by `10^13`. -/
structure FixedDec where
  raw : Int
deriving DecidableEq

/-- `SCALE_FACTOR = 10^13`. -/
def scaleFactor : Int := 10 ^ 13

/-- The constant `FixedDecimal::ZERO`. -/
def fdZero : FixedDec := ⟨0⟩

/-- The constant `FixedDecimal::TWO`. -/
def fdTwo : FixedDec := ⟨2 * scaleFactor⟩

/-- The constant `FixedDecimal::ONE_HUNDRED`. -/
def fdHundred : FixedDec := ⟨100 * scaleFactor⟩

/-- The constant `FixedDecimal::MIN` (`i64::MIN`). -/
def fdMin : FixedDec := ⟨i64Min⟩

/-- The constant `FixedDecimal::MAX` (`i64::MAX`). -/
def fdMax : FixedDec := ⟨i64Max⟩

/-- Translation of `FixedDecimal::is_zero` (`fixed_decimal.rs`): the raw
value with the sign bit masked out compares against zero, so both `0` and
`i64::MIN` pass.  The two's-complement bit pattern of `raw` is
`raw mod 2^64` and `VALUE_MASK = !SIGN_MASK = 2^63 - 1`. -/
def FixedDec.isZero (x : FixedDec) : Bool :=
  ((x.raw.emod (2 ^ 64)).toNat &&& (2 ^ 63 - 1)) == 0

/-- The `Add` impl of `FixedDecimal` as compiled for `x86_64`: the SIMD
`_mm_add_epi64`, a wrapping 64-bit addition. -/
def FixedDec.addSimd (a b : FixedDec) : FixedDec := ⟨wrap64 (a.raw + b.raw)⟩

/-- The `Add` impl of `FixedDecimal` as compiled for other targets:
`saturating_add`. -/
def FixedDec.addPortable (a b : FixedDec) : FixedDec := ⟨sat64 (a.raw + b.raw)⟩

/-- The `Sub` impl of `FixedDecimal`: `saturating_sub` on every target. -/
def FixedDec.sub (a b : FixedDec) : FixedDec := ⟨sat64 (a.raw - b.raw)⟩

/-- Translation of the `Mul` impl of `FixedDecimal` (`fixed_decimal.rs`):
zero and one short-circuits, then the exact 128-bit product divided by
`SCALE_FACTOR` (Rust `i128` division truncates toward zero) clamped to
the `i64` range. -/
def FixedDec.mul (a b : FixedDec) : FixedDec :=
  if a.isZero || b.isZero then fdZero
  else if a.raw = scaleFactor then b
  else if b.raw = scaleFactor then a
  else
    let result := Int.tdiv (a.raw * b.raw) scaleFactor
    if i64Max < result then fdMax
    else if result < i64Min then fdMin
    else ⟨result⟩

/-- Translation of the `Div` impl of `FixedDecimal` (`fixed_decimal.rs`);
`none` is the `Division by zero` panic. -/
def FixedDec.div (a b : FixedDec) : Option FixedDec :=
  if b.isZero then none
  else if a.isZero then some fdZero
  else if b.raw = scaleFactor then some a
  else
    let result := Int.tdiv (a.raw * scaleFactor) b.raw
    some (if i64Max < result then fdMax
          else if result < i64Min then fdMin
          else ⟨result⟩)

/-- Translation of the `Rem` impl of `FixedDecimal` (`fixed_decimal.rs`);
`none` is the `Division by zero` panic, `Int.tmod` the Rust `%`. -/
def FixedDec.rem (a b : FixedDec) : Option FixedDec :=
  if b.isZero then none else some ⟨Int.tmod a.raw b.raw⟩

/-- The `Sum` impl of `FixedDecimal`: a fold of `Add::add` starting at
zero (the x86_64 addition). -/
def fdSum (l : List FixedDec) : FixedDec := l.foldl FixedDec.addSimd fdZero

/-- The metrics record `OrderbookMetrics<V>` of `metrics.rs`. -/
structure MetricsFD where
  quoteImbalance : FixedDec
  midPrice : FixedDec
  spread : FixedDec
  spreadPct : FixedDec
  impactBuy : FixedDec
  impactSell : FixedDec
deriving DecidableEq

/-- Translation of `MetricsCalculator::calculate_metrics_internal`
(`metrics.rs`) at `V = FixedDecimal`; book values are the raw decimal
integers.  `none` is a `Division by zero` panic in the decimal layer.
Note that `price_impact_buy` and `price_impact_sell` divide by
`mid_price` guarded only by the non-emptiness of the price vector. -/
def calcMetricsInternal (bb ba : Option Level)
    (bidSizes askSizes bidPrices askPrices : List Int) : Option MetricsFD := do
  let mid : FixedDec ←
    match bb, ba with
    | some bid, some ask => FixedDec.div (FixedDec.addSimd ⟨bid.price⟩ ⟨ask.price⟩) fdTwo
    | _, _ => some fdZero
  let bidValue := fdSum (((bidSizes.zip bidPrices).map
    (fun sp => FixedDec.mul ⟨sp.1⟩ ⟨sp.2⟩)))
  let askValue := fdSum (((askSizes.zip askPrices).map
    (fun sp => FixedDec.mul ⟨sp.1⟩ ⟨sp.2⟩)))
  let totalValue := FixedDec.addSimd bidValue askValue
  let quoteImbalance : FixedDec ←
    if 0 < totalValue.raw then FixedDec.div (FixedDec.sub bidValue askValue) totalValue
    else some fdZero
  let spread : FixedDec :=
    match bb, ba with
    | some bid, some ask => FixedDec.sub ⟨ask.price⟩ ⟨bid.price⟩
    | _, _ => fdZero
  let spreadPct : FixedDec ←
    if 0 < mid.raw then (FixedDec.div spread mid).map (fun x => FixedDec.mul x fdHundred)
    else some fdZero
  let impactBuy : FixedDec ←
    if askPrices ≠ [] then
      (FixedDec.div (FixedDec.sub ⟨askPrices.getLastD 0⟩ mid) mid).map
        (fun x => FixedDec.mul x fdHundred)
    else some fdZero
  let impactSell : FixedDec ←
    if bidPrices ≠ [] then
      (FixedDec.div (FixedDec.sub mid ⟨bidPrices.getLastD 0⟩) mid).map
        (fun x => FixedDec.mul x fdHundred)
    else some fdZero
  pure ⟨quoteImbalance, mid, spread, spreadPct, impactBuy, impactSell⟩

/-- Translation of `ArrayOrderbook::calculate_metrics`
(`array_orderbook.rs`): collect the top `depth` levels of each side and
call the shared internal computation with the cached bests. -/
def ABook.calcMetrics (s : ABook) (depth : Nat) : Option MetricsFD :=
  let bidLvls := s.bids.buf.take (min depth s.bids.len)
  let askLvls := s.asks.buf.take (min depth s.asks.len)
  calcMetricsInternal s.bestBid s.bestAsk
    (bidLvls.map Level.size) (askLvls.map Level.size)
    (bidLvls.map Level.price) (askLvls.map Level.price)

/-! ### Concrete event and state abbreviations used by the claims -/

/-- An L2 depth event with explicit sequence id. -/
def mkL2 (sd : Side) (p sz : Int) (t : Int) (q : Nat) : EventI := ⟨.l2, sd, p, sz, t, q⟩

/-- A trade event (sequence id 0 unless stated). -/
def mkTrade (sd : Side) (p sz : Int) (t : Int) (q : Nat) : EventI := ⟨.trade, sd, p, sz, t, q⟩

/-- The array book after `L2(Buy, 100, 3)` and `Trade(Buy, 100, 1)`. -/
def arrayAfterTrade : ABook :=
  ABook.process 5 (ABook.process 5 (ABook.new 5) (mkL2 .buy 100 3 0 0)) (mkTrade .buy 100 1 0 0)

/-- The map book after the same two events. -/
def mapAfterTrade : MBook :=
  MBook.process (MBook.process MBook.new (mkL2 .buy 100 3 0 0)) (mkTrade .buy 100 1 0 0)

/-! ### C1 -/

/-- C1: the claim fails on `ArrayOrderbook::process_trade`.  With a resting
bid level `(100, 3)`, an admitted `Trade(Buy, 100, 1)` must leave size
`3 - 1 = 2` by the claim; the array book calls `modify(index, event.size)`
and stores size `1`, while the map book stores the decrement `2`. -/
theorem c1_array_trade_stores_event_size :
    bufEntries arrayAfterTrade.bids = [⟨100, 1⟩] ∧
    mapAfterTrade.bids = [(100, 3 - 1)] ∧
    (⟨100, 1⟩ : Level) ≠ ⟨100, 3 - 1⟩ := by decide

/-! ### C2 -/

/-- C2: the claim fails: after the identical admitted stream
`L2(Buy, 100, 3)`, `Trade(Buy, 100, 1)` the two book variants disagree on
`best_bid` (array `(100, 1)`, map `(100, 2)`) and on the stored level. -/
theorem c2_books_diverge_on_partial_trade :
    arrayAfterTrade.bestBid = some ⟨100, 1⟩ ∧
    mapAfterTrade.bestBid = some ⟨100, 2⟩ ∧
    arrayAfterTrade.bestBid ≠ mapAfterTrade.bestBid := by decide

/-! ### C3 -/

/-- The map book after an L2 event carrying sequence id 5. -/
def mapSeq5 : MBook := MBook.process MBook.new (mkL2 .buy 100 1 0 5)

/-- C3: the claim fails on `BTreeOrderBook`.  After the watermark is 5, an
admitted `Trade` with sequence id 7 leaves the watermark at 5 (the claim
requires 7, as the array book does), and an admitted zero-sequenced L2
event resets the watermark to 0 (the claim requires it unchanged at 5),
because `process` never writes `sequence_id` and `process_l2` assigns
`event.sequence_id` unconditionally. -/
theorem c3_mapbook_sequence_watermark_divergence :
    mapSeq5.seq = 5 ∧
    (MBook.process mapSeq5 (mkTrade .buy 100 1 1 7)).seq = 5 ∧
    (MBook.process mapSeq5 (mkL2 .buy 99 1 1 0)).seq = 0 := by decide

/-! ### C4 -/

/-- C4 counterexample: the "exactly when" direction fails.  A fresh-enough
`Trade` at an absent price passes both admission gates (its timestamp is
not old and its sequence id is 0), yet the whole state, `has_moved`
included, is exactly the state before, so an admitted event can also leave
the book unchanged. -/
theorem c4_admitted_noop_trade_leaves_state_unchanged :
    ABook.process 5 (ABook.new 5) (mkTrade .buy 100 1 0 0) = ABook.new 5 ∧
    ¬ (mkTrade .buy 100 1 0 0).timestamp < (ABook.new 5).ts ∧
    (mkTrade .buy 100 1 0 0).seq = 0 := by decide

/-! ### The side-dependent strict price order and buffer well-formedness -/

/-- The sentinel limit of a side (`V::MIN` for bids, `V::MAX` for asks). -/
def sideLim (isBid : Bool) : Int := if isBid then i64Min else i64Max

/-- Strict "a is a better price than b" on a side: higher for bids, lower
for asks.  Buffers are sorted best-first along this order. -/
def better (isBid : Bool) (a b : Int) : Prop :=
  match isBid with
  | true => b < a
  | false => a < b

instance (isBid : Bool) (a b : Int) : Decidable (better isBid a b) :=
  match isBid with
  | true => inferInstanceAs (Decidable (b < a))
  | false => inferInstanceAs (Decidable (a < b))

theorem better_trans {isBid : Bool} {a b c : Int} :
    better isBid a b → better isBid b c → better isBid a c := by
  cases isBid <;> simp only [better] <;> omega

theorem better_asymm {isBid : Bool} {a b : Int} :
    better isBid a b → ¬ better isBid b a := by
  cases isBid <;> simp only [better] <;> omega

theorem better_irrefl {isBid : Bool} {a : Int} : ¬ better isBid a a := by
  cases isBid <;> simp only [better] <;> omega

theorem better_total {isBid : Bool} {a b : Int} (h : a ≠ b) :
    better isBid a b ∨ better isBid b a := by
  cases isBid <;> simp only [better] <;> omega

/-- The boolean side-aware comparisons of the source all have this shape. -/
theorem betterCond (isBid : Bool) (x y : Int) :
    ((isBid && decide (x < y)) || (!isBid && decide (y < x))) = true ↔ better isBid y x := by
  cases isBid <;> simp [better]

/-- Well-formedness of a side buffer of capacity `N` (the invariants of
spec §3 and §4.2): the backing array has length `N`, the stored region is
strictly sorted best-first, stored prices are strictly inside the `i64`
range (hence never the sentinel), and the cache mirrors slot 0. -/
def BufWF (N : Nat) (isBid : Bool) (b : Buffer) : Prop :=
  b.len ≤ N ∧
  b.buf.length = N ∧
  b.limit = sideLim isBid ∧
  (bufPrices b).Pairwise (better isBid) ∧
  (∀ l ∈ bufEntries b, i64Min < l.price ∧ l.price < i64Max) ∧
  b.cachedFirst = (bufEntries b).head?

instance (N : Nat) (isBid : Bool) (b : Buffer) : Decidable (BufWF N isBid b) := by
  unfold BufWF
  infer_instance

/-! ### List index helpers -/

theorem take_set_of_le {α : Type} :
    ∀ (l : List α) (i j : Nat) (a : α), j ≤ i → (l.set i a).take j = l.take j
  | [], _, _, _, _ => by simp
  | _ :: _, _, 0, _, _ => by simp
  | _ :: _, 0, _ + 1, _, h => absurd h (by omega)
  | x :: xs, i + 1, j + 1, a, h => by
    simp only [List.set_cons_succ, List.take_succ_cons]
    rw [take_set_of_le xs i j a (by omega)]

theorem drop_set_of_lt {α : Type} :
    ∀ (l : List α) (i j : Nat) (a : α), i < j → (l.set i a).drop j = l.drop j
  | [], _, _, _, _ => by simp
  | _ :: _, 0, _ + 1, _, _ => by simp
  | _ :: _, _ + 1, 0, _, h => absurd h (by omega)
  | x :: xs, i + 1, j + 1, a, h => by
    simp only [List.set_cons_succ, List.drop_succ_cons]
    exact drop_set_of_lt xs i j a (by omega)

theorem drop_set_self {α : Type} :
    ∀ (l : List α) (i : Nat) (a : α), i < l.length → (l.set i a).drop i = a :: l.drop (i + 1)
  | [], _, _, h => absurd h (by simp)
  | x :: xs, 0, a, _ => by simp
  | x :: xs, i + 1, a, h => by
    simp only [List.set_cons_succ, List.drop_succ_cons]
    exact drop_set_self xs i a (by simpa using h)

theorem getElem?_entries (b : Buffer) (i : Nat) :
    (bufEntries b)[i]? = if i < b.len then b.buf[i]? else none := by
  simp [bufEntries, List.getElem?_take]

/-- The stored price at index `i` (0 past the end). -/
def pAt (b : Buffer) (i : Nat) : Int := (bufPrices b).getD i 0

theorem pAt_eq (b : Buffer) (i : Nat) (hi : i < b.len) (hb : b.len ≤ b.buf.length) :
    pAt b i = (b.getL i).price := by
  have hi2 : i < b.buf.length := lt_of_lt_of_le hi hb
  simp [pAt, bufPrices, Buffer.getL, List.getD_eq_getElem?_getD, List.getElem?_take, hi,
    getElem?_entries, List.getElem?_eq_getElem hi2]

theorem bufPrices_length (b : Buffer) (hb : b.len ≤ b.buf.length) :
    (bufPrices b).length = b.len := by
  simp [bufPrices, bufEntries]
  omega

theorem pAt_sorted (b : Buffer) (isBid : Bool)
    (hs : (bufPrices b).Pairwise (better isBid)) (hb : b.len ≤ b.buf.length)
    {i j : Nat} (hij : i < j) (hj : j < b.len) :
    better isBid (pAt b i) (pAt b j) := by
  have hl := bufPrices_length b hb
  have hi' : i < (bufPrices b).length := by omega
  have hj' : j < (bufPrices b).length := by omega
  have := List.pairwise_iff_getElem.mp hs i j hi' hj' hij
  simpa [pAt, List.getD_eq_getElem?_getD, List.getElem?_eq_getElem hi',
    List.getElem?_eq_getElem hj'] using this

theorem head?_take {α : Type} (l : List α) (i : Nat) (h : 0 < i) :
    (l.take i).head? = l.head? := by
  cases l <;> cases i <;> simp_all

theorem level_bound_limit (isBid : Bool) (x : Int) (hx : x = sideLim isBid) :
    Level.bound (x == i64Min) = Level.bound isBid := by
  subst hx
  cases isBid
  · have h : (sideLim false == i64Min) = false := by decide
    rw [h]
  · have h : (sideLim true == i64Min) = true := by decide
    rw [h]

theorem entries_getElem? (b : Buffer) (i : Nat) (hi : i < b.len) (hb : b.len ≤ b.buf.length) :
    (bufEntries b)[i]? = some (b.getL i) := by
  rw [getElem?_entries, if_pos hi, Buffer.getL, List.getD_eq_getElem?_getD,
    List.getElem?_eq_getElem (by omega : i < b.buf.length)]
  rfl

theorem getL_mem_entries (b : Buffer) (i : Nat) (hi : i < b.len) (hb : b.len ≤ b.buf.length) :
    b.getL i ∈ bufEntries b :=
  List.getElem?_mem (entries_getElem? b i hi hb)

theorem entries_head? (b : Buffer) (h0 : 0 < b.len) (hb : b.len ≤ b.buf.length) :
    (bufEntries b).head? = some (b.getL 0) := by
  rw [List.head?_eq_getElem?]
  exact entries_getElem? b 0 h0 hb

theorem ne_sideLim {isBid : Bool} {p : Int} (h1 : i64Min < p) (h2 : p < i64Max) :
    p ≠ sideLim isBid := by
  cases isBid <;> simp only [sideLim] <;> omega

/-- On a buffer whose stored prices all differ from the sentinel limit,
`invalidate_cache` writes exactly the head of the stored region. -/
theorem invalidateCache_cachedFirst (b : Buffer) (hb : b.len ≤ b.buf.length)
    (hr : ∀ l ∈ bufEntries b, l.price ≠ b.limit) :
    (b.invalidateCache).cachedFirst = (bufEntries b).head? := by
  show (if 0 < b.len then
      (if (b.getL 0).price ≠ b.limit then some (b.getL 0) else none)
    else none) = _
  by_cases h0 : 0 < b.len
  · rw [if_pos h0, if_pos (hr _ (getL_mem_entries b 0 h0 hb)), entries_head? b h0 hb]
  · rw [if_neg h0]
    have : bufEntries b = [] := by
      have : b.len = 0 := by omega
      simp [bufEntries, this]
    rw [this]
    rfl

/-- Effect of `Buffer::remove` on a well-formed buffer: the stored region
loses exactly the level at `index`, the removed price is returned, and
well-formedness is preserved. -/
theorem removeAt_spec (N : Nat) (isBid : Bool) (b : Buffer) (i : Nat)
    (hw : BufWF N isBid b) (hi : i < b.len) :
    bufEntries (b.removeAt i).1 = (bufEntries b).eraseIdx i ∧
    (b.removeAt i).1.len = b.len - 1 ∧
    BufWF N isBid (b.removeAt i).1 ∧
    (b.removeAt i).2 = (b.getL i).price := by
  obtain ⟨hlen, hbuf, hlim, hsort, hrange, hcache⟩ := hw
  have hbd : Level.bound (b.limit == i64Min) = Level.bound isBid :=
    level_bound_limit isBid b.limit hlim
  have hne : ¬ b.len = 0 := by omega
  have hErase : List.Sublist ((bufEntries b).eraseIdx i) (bufEntries b) :=
    List.eraseIdx_sublist _ _
  have hrange2 : ∀ l ∈ (bufEntries b).eraseIdx i, i64Min < l.price ∧ l.price < i64Max :=
    fun l hl => hrange l (hErase.subset hl)
  by_cases hc : b.len - 1 ≤ i
  · -- removal of the last stored slot
    have hieq : i = b.len - 1 := by omega
    have hres : (b.removeAt i).1 =
        Buffer.invalidateCache
          { b with buf := b.buf.set (b.len - 1) (Level.bound isBid), len := b.len - 1 } := by
      simp only [Buffer.removeAt, Buffer.moveBack, hbd]
      rw [if_neg hne, if_pos hc, hieq, List.set_set]
    have hentR : bufEntries ({ b with
        buf := b.buf.set (b.len - 1) (Level.bound isBid),
        len := b.len - 1 } : Buffer) = (bufEntries b).eraseIdx i := by
      show (b.buf.set (b.len - 1) (Level.bound isBid)).take (b.len - 1) = _
      rw [take_set_of_le _ _ _ _ (le_refl _), List.eraseIdx_eq_take_drop_succ, hieq]
      have h1 : (bufEntries b).take (b.len - 1) = b.buf.take (b.len - 1) := by
        simp [bufEntries, List.take_take]
      have h2 : (bufEntries b).drop (b.len - 1 + 1) = [] := by
        have h3 : b.len - 1 + 1 = b.len := by omega
        rw [h3]
        simp [bufEntries, List.drop_take]
      rw [h1, h2, List.append_nil]
    have hentries : bufEntries (b.removeAt i).1 = (bufEntries b).eraseIdx i := by
      rw [hres]
      exact hentR
    refine ⟨hentries, by rw [hres]; rfl, ?_, rfl⟩
    refine ⟨?_, ?_, ?_, ?_, ?_, ?_⟩
    · rw [hres]; show b.len - 1 ≤ N; omega
    · rw [hres]; show (b.buf.set _ _).length = N; simp [hbuf]
    · rw [hres]; exact hlim
    · show ((bufEntries (b.removeAt i).1).map Level.price).Pairwise _
      rw [hentries]
      exact hsort.sublist (hErase.map _)
    · intro l hl
      rw [hentries] at hl
      exact hrange2 l hl
    · rw [hres]
      refine invalidateCache_cachedFirst _ (by simp [hbuf]; omega) ?_
      intro l hl
      rw [hentR] at hl
      show l.price ≠ b.limit
      rw [hlim]
      exact ne_sideLim (hrange2 l hl).1 (hrange2 l hl).2
  · -- removal from the interior: the tail shifts left by one
    have hlt : i < b.len - 1 := by omega
    have hLlen : b.len ≤ b.buf.length := by omega
    have hAlen : (b.buf.take i).length = i := by simp; omega
    have hB1len : ((b.buf.drop (i + 1)).take (b.len - 1 - i)).length = b.len - 1 - i := by
      simp
      omega
    have hABlen : (b.buf.take i ++ (b.buf.drop (i + 1)).take (b.len - 1 - i)).length
        = b.len - 1 := by
      rw [List.length_append, hAlen, hB1len]
      omega
    have hABblen : (b.buf.take i ++ (b.buf.drop (i + 1)).take (b.len - 1 - i)
        ++ [Level.bound isBid]).length = b.len := by
      rw [List.length_append, hABlen]
      simp
      omega
    have hCatLen : (b.buf.take i ++ (b.buf.drop (i + 1)).take (b.len - 1 - i)
        ++ [Level.bound isBid] ++ b.buf.drop b.len).length = N := by
      rw [List.length_append, hABblen, List.length_drop, hbuf]
      omega
    have hres : (b.removeAt i).1 =
        (if i = 0 then
          Buffer.invalidateCache
            { b with
              buf := b.buf.take i ++ (b.buf.drop (i + 1)).take (b.len - 1 - i)
                     ++ [Level.bound isBid] ++ b.buf.drop b.len,
              len := b.len - 1 }
        else
          { b with
            buf := b.buf.take i ++ (b.buf.drop (i + 1)).take (b.len - 1 - i)
                   ++ [Level.bound isBid] ++ b.buf.drop b.len,
            len := b.len - 1 }) := by
      simp only [Buffer.removeAt, Buffer.moveBack, hbd]
      rw [if_neg hne, if_neg hc]
      rw [take_set_of_le _ _ _ _ (le_refl i), drop_set_of_lt _ _ _ _ (by omega : i < i + 1),
        drop_set_of_lt _ _ _ _ hi]
    have hentR : bufEntries ({ b with
        buf := b.buf.take i ++ (b.buf.drop (i + 1)).take (b.len - 1 - i)
               ++ [Level.bound isBid] ++ b.buf.drop b.len,
        len := b.len - 1 } : Buffer) = (bufEntries b).eraseIdx i := by
      show (b.buf.take i ++ (b.buf.drop (i + 1)).take (b.len - 1 - i)
            ++ [Level.bound isBid] ++ b.buf.drop b.len).take (b.len - 1) = _
      rw [List.take_append_eq_append_take, List.take_append_eq_append_take]
      rw [List.take_of_length_le (le_of_eq hABlen)]
      rw [show b.len - 1 - (b.buf.take i ++ (b.buf.drop (i + 1)).take (b.len - 1 - i)).length
            = 0 from by rw [hABlen]; omega]
      rw [show b.len - 1
            - (b.buf.take i ++ (b.buf.drop (i + 1)).take (b.len - 1 - i) ++
               [Level.bound isBid]).length = 0 from by rw [hABblen]; omega]
      rw [List.take_zero, List.take_zero, List.append_nil, List.append_nil]
      rw [List.eraseIdx_eq_take_drop_succ]
      have h1 : (bufEntries b).take i = b.buf.take i := by
        show (b.buf.take b.len).take i = _
        rw [List.take_take, Nat.min_eq_left (by omega)]
      have h2 : (bufEntries b).drop (i + 1)
          = (b.buf.drop (i + 1)).take (b.len - 1 - i) := by
        show (b.buf.take b.len).drop (i + 1) = _
        rw [List.drop_take]
        congr 1
        omega
      rw [h1, h2]
    have hentries : bufEntries (b.removeAt i).1 = (bufEntries b).eraseIdx i := by
      rw [hres]
      by_cases h0 : i = 0
      · rw [if_pos h0]
        exact hentR
      · rw [if_neg h0]
        exact hentR
    have hlenres : (b.removeAt i).1.len = b.len - 1 := by
      rw [hres]
      by_cases h0 : i = 0
      · rw [if_pos h0]
        rfl
      · rw [if_neg h0]
    have hbufres : (b.removeAt i).1.buf.length = N := by
      rw [hres]
      by_cases h0 : i = 0
      · rw [if_pos h0]; exact hCatLen
      · rw [if_neg h0]; exact hCatLen
    refine ⟨hentries, hlenres, ?_, rfl⟩
    refine ⟨?_, hbufres, ?_, ?_, ?_, ?_⟩
    · rw [hlenres]; omega
    · rw [hres]
      by_cases h0 : i = 0
      · rw [if_pos h0]; exact hlim
      · rw [if_neg h0]; exact hlim
    · show ((bufEntries (b.removeAt i).1).map Level.price).Pairwise _
      rw [hentries]
      exact hsort.sublist (hErase.map _)
    · intro l hl
      rw [hentries] at hl
      exact hrange2 l hl
    · rw [hres]
      by_cases h0 : i = 0
      · rw [if_pos h0]
        refine invalidateCache_cachedFirst _ ?_ ?_
        · show b.len - 1 ≤ _
          rw [hCatLen]
          omega
        · intro l hl
          rw [hentR] at hl
          show l.price ≠ b.limit
          rw [hlim]
          exact ne_sideLim (hrange2 l hl).1 (hrange2 l hl).2
      · rw [if_neg h0]
        show b.cachedFirst = _
        rw [hentR, hcache, List.eraseIdx_eq_take_drop_succ]
        have h0e : 0 < b.len := by omega
        have hEl : (bufEntries b).length = b.len := by
          simp [bufEntries]
          omega
        rw [List.head?_eq_getElem?, List.head?_eq_getElem?]
        rw [List.getElem?_append]
        rw [if_pos (by rw [List.length_take, hEl]; omega)]
        rw [List.getElem?_take]
        rw [if_pos (by omega : 0 < i)]



theorem insertIdx_split {α : Type} :
    ∀ (l : List α) (n : Nat) (a : α), n ≤ l.length →
      l.insertIdx n a = l.take n ++ a :: l.drop n
  | l, 0, a, _ => by simp
  | [], n + 1, a, h => absurd h (by simp)
  | x :: xs, n + 1, a, h => by
    simp only [List.insertIdx_succ_cons, List.take_succ_cons, List.drop_succ_cons,
      List.cons_append]
    rw [insertIdx_split xs n a (by simpa using h)]

/-- Effect of `Buffer::insert` on the stored region: the level lands at
its index and everything past capacity is cut off. -/
theorem insertAt_entries (N : Nat) (b : Buffer) (i : Nat) (lvl : Level)
    (hi : i ≤ b.len) (hlen : b.len ≤ N) (hbuf : b.buf.length = N) :
    bufEntries (b.insertAt N i lvl) = ((bufEntries b).insertIdx i lvl).take N ∧
    (b.insertAt N i lvl).len = min (b.len + 1) N ∧
    (b.insertAt N i lvl).buf.length = N ∧
    (b.insertAt N i lvl).limit = b.limit := by
  have hEl : (bufEntries b).length = b.len := by
    simp [bufEntries]
    omega
  unfold Buffer.insertAt
  by_cases hNi : N ≤ i
  · rw [if_pos hNi]
    refine ⟨?_, by omega, hbuf, rfl⟩
    rw [show (bufEntries b).insertIdx i lvl = bufEntries b ++ [lvl] from ?_]
    · rw [List.take_append_of_le_length (by rw [hEl]; omega)]
      rw [bufEntries, List.take_take, Nat.min_eq_right (by omega), ← bufEntries]
    · rw [show i = (bufEntries b).length from by rw [hEl]; omega]
      clear hEl
      induction (bufEntries b) <;> simp_all
  · rw [if_neg hNi]
    by_cases hil : i = b.len
    · rw [if_pos hil]
      have hsome : (b.buf.set b.len lvl)[b.len]? = some lvl := by
        rw [List.getElem?_set, if_pos rfl, if_pos (by omega)]
      have hRHS : ((bufEntries b).insertIdx b.len lvl).take N = bufEntries b ++ [lvl] := by
        rw [insertIdx_split _ _ _ (le_of_eq hEl.symm)]
        rw [List.take_of_length_le (le_of_eq hEl)]
        rw [List.drop_eq_nil_of_le (le_of_eq hEl)]
        rw [List.take_of_length_le (by simp [hEl]; omega)]
      refine ⟨?_, by show b.len + 1 = _; omega, by show (b.buf.set _ _).length = N; simp [hbuf],
        rfl⟩
      show (b.buf.set b.len lvl).take (b.len + 1) = ((bufEntries b).insertIdx i lvl).take N
      rw [hil, hRHS, List.take_succ, take_set_of_le _ _ _ _ (le_refl _), hsome]
      rfl
    · rw [if_neg hil]
      have hilt : i < b.len := by omega
      by_cases hi0 : i = 0
      · rw [if_pos hi0]
        subst hi0
        refine ⟨?_, rfl, ?_, rfl⟩
        · show ((lvl :: (b.buf.take b.len ++ b.buf.drop (b.len + 1))).take N).take
            (min (b.len + 1) N) = _
          rw [List.take_take]
          rw [show min (b.len + 1) N ⊓ N = min (b.len + 1) N from by omega]
          rw [show lvl :: (b.buf.take b.len ++ b.buf.drop (b.len + 1))
                = (lvl :: b.buf.take b.len) ++ b.buf.drop (b.len + 1) from rfl]
          rw [List.take_append_of_le_length (by simp; omega)]
          rw [List.insertIdx_zero]
          refine List.take_eq_take.mpr ?_
          show min (min (b.len + 1) N) (lvl :: b.buf.take b.len).length
            = min N (lvl :: bufEntries b).length
          simp only [List.length_cons, List.length_take, hbuf, hEl]
          omega
        · show ((lvl :: (b.buf.take b.len ++ b.buf.drop (b.len + 1))).take N).length = N
          simp [hbuf]
          omega
      · simp only [if_neg hi0]
        refine ⟨?_, by trivial, ?_, by trivial⟩
        · show ((b.buf.take i ++ lvl :: ((b.buf.drop i).take (b.len - i)
              ++ b.buf.drop (b.len + 1))).take N).take (min (b.len + 1) N) = _
          rw [List.take_take]
          rw [show min (b.len + 1) N ⊓ N = min (b.len + 1) N from by omega]
          rw [show b.buf.take i ++ lvl :: ((b.buf.drop i).take (b.len - i)
                ++ b.buf.drop (b.len + 1))
              = (b.buf.take i ++ lvl :: (b.buf.drop i).take (b.len - i))
                ++ b.buf.drop (b.len + 1) from by simp]
          rw [List.take_append_of_le_length (by simp; omega)]
          rw [insertIdx_split _ _ _ (by omega : i ≤ (bufEntries b).length)]
          have h1 : (bufEntries b).take i = b.buf.take i := by
            show (b.buf.take b.len).take i = _
            rw [List.take_take, Nat.min_eq_left (by omega)]
          have h2 : (bufEntries b).drop i = (b.buf.drop i).take (b.len - i) := by
            show (b.buf.take b.len).drop i = _
            rw [List.drop_take]
          rw [h1, h2]
          refine List.take_eq_take.mpr ?_
          simp only [List.length_append, List.length_cons, List.length_take,
            List.length_drop, hbuf]
          omega
        · show ((b.buf.take i ++ lvl :: ((b.buf.drop i).take (b.len - i)
              ++ b.buf.drop (b.len + 1))).take N).length = N
          simp [hbuf]
          omega

theorem modifyAt_buf (b : Buffer) (i : Nat) (sz : Int) :
    (b.modifyAt i sz).buf = b.buf.set i ⟨(b.getL i).price, sz⟩ := by
  unfold Buffer.modifyAt
  split <;> rfl

theorem modifyAt_len (b : Buffer) (i : Nat) (sz : Int) :
    (b.modifyAt i sz).len = b.len := by
  unfold Buffer.modifyAt
  split <;> rfl

theorem modifyAt_limit (b : Buffer) (i : Nat) (sz : Int) :
    (b.modifyAt i sz).limit = b.limit := by
  unfold Buffer.modifyAt
  split <;> rfl

/-- `Buffer::modify` never changes a stored price. -/
theorem modifyAt_prices (b : Buffer) (i : Nat) (sz : Int) (hb : b.len ≤ b.buf.length) :
    bufPrices (b.modifyAt i sz) = bufPrices b := by
  apply List.ext_getElem?
  intro j
  simp only [bufPrices, List.getElem?_map, bufEntries, modifyAt_buf, modifyAt_len,
    List.getElem?_take]
  by_cases hj : j < b.len
  · rw [if_pos hj, if_pos hj, List.getElem?_set]
    by_cases hij : i = j
    · rw [if_pos hij]
      have hiL : i < b.buf.length := by omega
      rw [if_pos hiL]
      subst hij
      rw [List.getElem?_eq_getElem hiL]
      simp [Buffer.getL, List.getD_eq_getElem?_getD, List.getElem?_eq_getElem hiL]
    · rw [if_neg hij]
  · rw [if_neg hj, if_neg hj]

/-- Windows returned by the plain binary search loop stay inside the
initial window. -/
theorem searchGo_bounds (b : Buffer) (price : Int) (isBid : Bool) :
    ∀ (fuel left right : Nat), left ≤ right →
      (∀ i, Buffer.searchGo b price isBid fuel left right = .ok i → left ≤ i ∧ i < right) ∧
      (∀ i, Buffer.searchGo b price isBid fuel left right = .err i → left ≤ i ∧ i ≤ right) := by
  intro fuel
  induction fuel with
  | zero =>
    intro left right h
    constructor <;> intro i hres
    · cases hres
    · injection hres with h2
      omega
  | succ n ih =>
    intro left right h
    by_cases hlr : left < right
    · have hrec1 := ih left (left + (right - left) / 2) (by omega)
      have hrec2 := ih (left + (right - left) / 2 + 1) right (by omega)
      constructor <;> intro i hres <;>
        (simp only [Buffer.searchGo] at hres
         rw [if_pos hlr] at hres
         split at hres)
      · injection hres with h2
        omega
      · split at hres
        · have := hrec1.1 i hres
          omega
        · have := hrec2.1 i hres
          omega
      · cases hres
      · split at hres
        · have := hrec1.2 i hres
          omega
        · have := hrec2.2 i hres
          omega
    · constructor <;> intro i hres <;>
        (simp only [Buffer.searchGo] at hres
         rw [if_neg hlr] at hres)
      · cases hres
      · injection hres with h2
        omega

/-- The branchless loop never leaves the initial window. -/
theorem branchGo_lt (b : Buffer) (price : Int) (isBid : Bool) :
    ∀ (fuel left size : Nat), 1 ≤ size →
      Buffer.branchGo b price isBid fuel left size < left + size := by
  intro fuel
  induction fuel with
  | zero =>
    intro l s h
    simp only [Buffer.branchGo]
    omega
  | succ n ih =>
    intro l s h
    simp only [Buffer.branchGo]
    by_cases h1 : 1 < s
    · rw [if_pos h1]
      have key : ∀ left2 : Nat, left2 = l ∨ left2 = l + s / 2 →
          Buffer.branchGo b price isBid n left2 (s - s / 2) < l + s := by
        intro left2 hl2
        have := ih left2 (s - s / 2) (by omega)
        omega
      refine key _ ?_
      split
      · right; rfl
      · left; rfl
    · rw [if_neg h1]
      omega

theorem branchlessSearch_bounds (b : Buffer) (price : Int) (isBid : Bool) (h : 1 ≤ b.len) :
    (∀ i, b.branchlessSearch price isBid = .ok i → i < b.len) ∧
    (∀ i, b.branchlessSearch price isBid = .err i → i ≤ b.len) := by
  have h1 := branchGo_lt b price isBid b.len 0 b.len h
  constructor <;> intro i hres <;>
    (simp only [Buffer.branchlessSearch] at hres
     split at hres)
  · injection hres with h2
    omega
  · cases hres
  · cases hres
  · injection hres with h2
    omega

theorem findIndex_bounds (b : Buffer) (price : Int) (isBid : Bool) :
    (∀ i, b.findIndex price isBid = .ok i → i < b.len) ∧
    (∀ i, b.findIndex price isBid = .err i → i ≤ b.len) := by
  constructor <;> intro i hres <;>
    (unfold Buffer.findIndex at hres
     repeat' split at hres) <;>
    first
      | (injection hres with h2; omega)
      | cases hres
      | exact (branchlessSearch_bounds b price isBid (by omega)).1 i hres
      | exact (branchlessSearch_bounds b price isBid (by omega)).2 i hres
      | (unfold Buffer.searchLoop at hres
         exact ((searchGo_bounds b price isBid (b.len - 0) 0 b.len (by omega)).1 i hres).2)
      | (unfold Buffer.searchLoop at hres
         exact ((searchGo_bounds b price isBid (b.len - 0) 0 b.len (by omega)).2 i hres).2)

/-- The plain binary search finds a present price (strictly sorted
stored region, window invariants as loop hypotheses). -/
theorem searchGo_present (b : Buffer) (price : Int) (isBid : Bool)
    (hb : b.len ≤ b.buf.length)
    (hsort : (bufPrices b).Pairwise (better isBid))
    (i0 : Nat) (hi0 : i0 < b.len) (hp : pAt b i0 = price) :
    ∀ (fuel left right : Nat), right - left ≤ fuel → right ≤ b.len →
      (∀ k, k < left → better isBid (pAt b k) price) →
      (∀ k, right ≤ k → k < b.len → better isBid price (pAt b k)) →
      Buffer.searchGo b price isBid fuel left right = .ok i0 := by
  have huniq : ∀ k, k < b.len → pAt b k = price → k = i0 := by
    intro k hk hkp
    by_contra hne
    rcases Nat.lt_or_ge k i0 with h | h
    · have hs := pAt_sorted b isBid hsort hb h hi0
      rw [hkp, hp] at hs
      exact better_irrefl hs
    · have hlt : i0 < k := by omega
      have hs := pAt_sorted b isBid hsort hb hlt hk
      rw [hkp, hp] at hs
      exact better_irrefl hs
  intro fuel
  induction fuel with
  | zero =>
    intro left right hf hr hleft hright
    exfalso
    have hL : left ≤ i0 := by
      by_contra h
      exact better_irrefl (hp ▸ hleft i0 (by omega))
    have hR : i0 < right := by
      by_contra h
      exact better_irrefl (hp ▸ hright i0 (by omega) hi0)
    omega
  | succ n ih =>
    intro left right hf hr hleft hright
    have hL : left ≤ i0 := by
      by_contra h
      exact better_irrefl (hp ▸ hleft i0 (by omega))
    have hR : i0 < right := by
      by_contra h
      exact better_irrefl (hp ▸ hright i0 (by omega) hi0)
    have hlr : left < right := by omega
    simp only [Buffer.searchGo]
    rw [if_pos hlr]
    have hmlt : left + (right - left) / 2 < right := by omega
    have hlp : (b.getL (left + (right - left) / 2)).price = pAt b (left + (right - left) / 2) :=
      (pAt_eq b _ (by omega) hb).symm
    by_cases heq : price = (b.getL (left + (right - left) / 2)).price
    · rw [if_pos heq]
      exact congrArg FindRes.ok
        ((huniq _ (by omega) (hlp.symm.trans heq.symm)).symm ▸ rfl)
    · rw [if_neg heq]
      by_cases hcond : ((isBid && decide ((b.getL (left + (right - left) / 2)).price < price))
          || (!isBid && decide (price < (b.getL (left + (right - left) / 2)).price))) = true
      · rw [if_pos hcond]
        have hbp : better isBid price (pAt b (left + (right - left) / 2)) := by
          have := (betterCond isBid ((b.getL (left + (right - left) / 2)).price) price).mp hcond
          rwa [hlp] at this
        apply ih left (left + (right - left) / 2) (by omega) (by omega) hleft
        intro k hk1 hk2
        rcases Nat.eq_or_lt_of_le hk1 with h | h
        · rw [← h]
          exact hbp
        · exact better_trans hbp (pAt_sorted b isBid hsort hb h hk2)
      · rw [if_neg hcond]
        have hnb : ¬ better isBid price (pAt b (left + (right - left) / 2)) := by
          intro h
          apply hcond
          apply (betterCond isBid ((b.getL (left + (right - left) / 2)).price) price).mpr
          rwa [hlp]
        have hbp : better isBid (pAt b (left + (right - left) / 2)) price := by
          rcases better_total
            (show pAt b (left + (right - left) / 2) ≠ price from
              fun h => heq ((hlp.trans h).symm)) with h | h
          · exact h
          · exact absurd h hnb
        apply ih (left + (right - left) / 2 + 1) right (by omega) hr ?_ hright
        intro k hk
        rcases (by omega : k = left + (right - left) / 2 ∨ k < left + (right - left) / 2)
          with h | h
        · rw [h]
          exact hbp
        · exact better_trans (pAt_sorted b isBid hsort hb h (by omega)) hbp

/-- The plain binary search on an absent price returns the unique sorted
insertion window boundary. -/
theorem searchGo_absent (b : Buffer) (price : Int) (isBid : Bool)
    (hb : b.len ≤ b.buf.length)
    (hsort : (bufPrices b).Pairwise (better isBid))
    (hnp : ∀ k, k < b.len → pAt b k ≠ price) :
    ∀ (fuel left right : Nat), right - left ≤ fuel → left ≤ right → right ≤ b.len →
      (∀ k, k < left → better isBid (pAt b k) price) →
      (∀ k, right ≤ k → k < b.len → better isBid price (pAt b k)) →
      ∃ j, Buffer.searchGo b price isBid fuel left right = .err j ∧ left ≤ j ∧ j ≤ right ∧
        (∀ k, k < j → better isBid (pAt b k) price) ∧
        (∀ k, j ≤ k → k < b.len → better isBid price (pAt b k)) := by
  intro fuel
  induction fuel with
  | zero =>
    intro left right hf h1 h2 hleft hright
    have heq2 : left = right := by omega
    refine ⟨left, by simp [Buffer.searchGo], le_refl _, by omega, hleft, ?_⟩
    rw [heq2]
    exact hright
  | succ n ih =>
    intro left right hf h1 h2 hleft hright
    by_cases hlr : left < right
    · simp only [Buffer.searchGo]
      rw [if_pos hlr]
      have hmlt : left + (right - left) / 2 < right := by omega
      have hlp : (b.getL (left + (right - left) / 2)).price
          = pAt b (left + (right - left) / 2) := (pAt_eq b _ (by omega) hb).symm
      have hne : pAt b (left + (right - left) / 2) ≠ price := hnp _ (by omega)
      have heq : ¬ price = (b.getL (left + (right - left) / 2)).price := by
        intro h
        exact hne (hlp.symm.trans h.symm)
      rw [if_neg heq]
      by_cases hcond : ((isBid && decide ((b.getL (left + (right - left) / 2)).price < price))
          || (!isBid && decide (price < (b.getL (left + (right - left) / 2)).price))) = true
      · rw [if_pos hcond]
        have hbp : better isBid price (pAt b (left + (right - left) / 2)) := by
          have := (betterCond isBid ((b.getL (left + (right - left) / 2)).price) price).mp hcond
          rwa [hlp] at this
        have hright2 : ∀ k, left + (right - left) / 2 ≤ k → k < b.len →
            better isBid price (pAt b k) := by
          intro k hk1 hk2
          rcases Nat.eq_or_lt_of_le hk1 with h | h
          · rw [← h]
            exact hbp
          · exact better_trans hbp (pAt_sorted b isBid hsort hb h hk2)
        obtain ⟨j, hj⟩ := ih left (left + (right - left) / 2) (by omega) (by omega) (by omega)
          hleft hright2
        exact ⟨j, hj.1, hj.2.1, by omega, hj.2.2.2⟩
      · rw [if_neg hcond]
        have hnb : ¬ better isBid price (pAt b (left + (right - left) / 2)) := by
          intro h
          apply hcond
          apply (betterCond isBid ((b.getL (left + (right - left) / 2)).price) price).mpr
          rwa [hlp]
        have hbp : better isBid (pAt b (left + (right - left) / 2)) price := by
          rcases better_total (show pAt b (left + (right - left) / 2) ≠ price from hne)
            with h | h
          · exact h
          · exact absurd h hnb
        have hleft2 : ∀ k, k < left + (right - left) / 2 + 1 →
            better isBid (pAt b k) price := by
          intro k hk
          rcases (by omega : k = left + (right - left) / 2 ∨ k < left + (right - left) / 2)
            with h | h
          · rw [h]
            exact hbp
          · exact better_trans (pAt_sorted b isBid hsort hb h (by omega)) hbp
        obtain ⟨j, hj⟩ := ih (left + (right - left) / 2 + 1) right (by omega) (by omega) h2
          hleft2 hright
        exact ⟨j, hj.1, by omega, hj.2.2.1, hj.2.2.2⟩
    · have heq2 : left = right := by omega
      simp only [Buffer.searchGo]
      rw [if_neg hlr]
      refine ⟨left, rfl, le_refl _, by omega, hleft, ?_⟩
      rw [heq2]
      exact hright

/-- When no fast path fires and the buffer is small, `find_index` is the
plain binary search over the whole stored region. -/
theorem findIndex_eval (b : Buffer) (price : Int) (isBid : Bool) (h0 : ¬ b.len = 0)
    (hb : b.len ≤ b.buf.length)
    (hA : ¬ better isBid price (pAt b 0))
    (hB2 : ¬ better isBid (pAt b (b.len - 1)) price)
    (hsmall : ¬ 32 ≤ b.len) :
    b.findIndex price isBid = b.searchLoop price isBid 0 b.len := by
  have hpe0 := pAt_eq b 0 (by omega) hb
  have hpeL := pAt_eq b (b.len - 1) (by omega) hb
  unfold Buffer.findIndex
  rw [if_neg h0]
  cases isBid
  · rw [if_neg (show ¬ (false = true) from by simp)]
    rw [← hpe0, ← hpeL]
    have hA2 : ¬ (price < pAt b 0) := hA
    have hB3 : ¬ (pAt b (b.len - 1) < price) := hB2
    rw [if_neg hA2, if_neg hB3, if_neg hsmall]
  · rw [if_pos rfl]
    rw [← hpe0, ← hpeL]
    have hA2 : ¬ (pAt b 0 < price) := hA
    have hB3 : ¬ (price < pAt b (b.len - 1)) := hB2
    rw [if_neg hA2, if_neg hB3, if_neg hsmall]

theorem findIndex_err_zero (b : Buffer) (price : Int) (isBid : Bool) (h0 : ¬ b.len = 0)
    (hb : b.len ≤ b.buf.length)
    (hA : better isBid price (pAt b 0)) :
    b.findIndex price isBid = .err 0 := by
  have hpe0 := pAt_eq b 0 (by omega) hb
  unfold Buffer.findIndex
  rw [if_neg h0]
  cases isBid
  · rw [if_neg (show ¬ (false = true) from by simp)]
    rw [← hpe0]
    have hA2 : price < pAt b 0 := hA
    rw [if_pos hA2]
  · rw [if_pos rfl]
    rw [← hpe0]
    have hA2 : pAt b 0 < price := hA
    rw [if_pos hA2]

theorem findIndex_err_len (b : Buffer) (price : Int) (isBid : Bool) (h0 : ¬ b.len = 0)
    (hb : b.len ≤ b.buf.length)
    (hA : ¬ better isBid price (pAt b 0))
    (hB2 : better isBid (pAt b (b.len - 1)) price) :
    b.findIndex price isBid = .err b.len := by
  have hpe0 := pAt_eq b 0 (by omega) hb
  have hpeL := pAt_eq b (b.len - 1) (by omega) hb
  unfold Buffer.findIndex
  rw [if_neg h0]
  cases isBid
  · rw [if_neg (show ¬ (false = true) from by simp)]
    rw [← hpe0, ← hpeL]
    have hA2 : ¬ (price < pAt b 0) := hA
    have hB3 : pAt b (b.len - 1) < price := hB2
    rw [if_neg hA2, if_pos hB3]
  · rw [if_pos rfl]
    rw [← hpe0, ← hpeL]
    have hA2 : ¬ (pAt b 0 < price) := hA
    have hB3 : price < pAt b (b.len - 1) := hB2
    rw [if_neg hA2, if_pos hB3]

/-- On a small well-formed buffer, `find_index` locates a present price. -/
theorem findIndex_present (N : Nat) (isBid : Bool) (b : Buffer) (hw : BufWF N isBid b)
    (price : Int) (i0 : Nat) (hi0 : i0 < b.len) (hp : pAt b i0 = price)
    (hsmall : b.len < 32) :
    b.findIndex price isBid = .ok i0 := by
  obtain ⟨hlen, hbuf, hlim, hsort, hrange, hcache⟩ := hw
  have hb : b.len ≤ b.buf.length := by omega
  have h0 : ¬ b.len = 0 := by omega
  have hA : ¬ better isBid price (pAt b 0) := by
    intro h
    by_cases hz : i0 = 0
    · rw [hz] at hp
      rw [← hp] at h
      exact better_irrefl h
    · have hs := pAt_sorted b isBid hsort hb (by omega : 0 < i0) hi0
      rw [hp] at hs
      exact better_irrefl (better_trans h hs)
  have hB2 : ¬ better isBid (pAt b (b.len - 1)) price := by
    intro h
    by_cases hz : i0 = b.len - 1
    · rw [hz] at hp
      rw [← hp] at h
      exact better_irrefl h
    · have hs := pAt_sorted b isBid hsort hb (show i0 < b.len - 1 by omega) (by omega)
      rw [hp] at hs
      exact better_irrefl (better_trans hs h)
  rw [findIndex_eval b price isBid h0 hb hA hB2 (by omega)]
  exact searchGo_present b price isBid hb hsort i0 hi0 hp (b.len - 0) 0 b.len
    (by omega) (le_refl _) (fun k hk => absurd hk (by omega))
    (fun k hk1 hk2 => absurd hk2 (by omega))

/-- On a small well-formed buffer, `find_index` on an absent price yields
the sorted insertion position: everything before it is strictly better,
everything from it on strictly worse. -/
theorem findIndex_absent (N : Nat) (isBid : Bool) (b : Buffer) (hw : BufWF N isBid b)
    (price : Int) (hnp : ∀ k, k < b.len → pAt b k ≠ price) (hsmall : b.len < 32) :
    ∃ j, b.findIndex price isBid = .err j ∧ j ≤ b.len ∧
      (∀ k, k < j → better isBid (pAt b k) price) ∧
      (∀ k, j ≤ k → k < b.len → better isBid price (pAt b k)) := by
  obtain ⟨hlen, hbuf, hlim, hsort, hrange, hcache⟩ := hw
  have hb : b.len ≤ b.buf.length := by omega
  by_cases h0 : b.len = 0
  · refine ⟨0, ?_, by omega, fun k hk => absurd hk (by omega),
      fun k hk1 hk2 => absurd hk2 (by omega)⟩
    unfold Buffer.findIndex
    rw [if_pos h0]
  · by_cases hA : better isBid price (pAt b 0)
    · refine ⟨0, findIndex_err_zero b price isBid h0 hb hA, by omega,
        fun k hk => absurd hk (by omega), ?_⟩
      intro k hk1 hk2
      by_cases hz : k = 0
      · rw [hz]
        exact hA
      · exact better_trans hA (pAt_sorted b isBid hsort hb (by omega : 0 < k) hk2)
    · by_cases hB2 : better isBid (pAt b (b.len - 1)) price
      · refine ⟨b.len, findIndex_err_len b price isBid h0 hb hA hB2, le_refl _, ?_,
          fun k hk1 hk2 => absurd hk2 (by omega)⟩
        intro k hk
        by_cases hz : k = b.len - 1
        · rw [hz]
          exact hB2
        · exact better_trans (pAt_sorted b isBid hsort hb (by omega : k < b.len - 1) (by omega))
            hB2
      · obtain ⟨j, hj1, hj2, hj3, hj4, hj5⟩ := searchGo_absent b price isBid hb hsort hnp
          (b.len - 0) 0 b.len (by omega) (by omega) (le_refl _)
          (fun k hk => absurd hk (by omega)) (fun k hk1 hk2 => absurd hk2 (by omega))
        refine ⟨j, ?_, by omega, hj4, hj5⟩
        rw [findIndex_eval b price isBid h0 hb hA hB2 (by omega)]
        exact hj1

theorem map_insertIdx {α β : Type} (f : α → β) :
    ∀ (l : List α) (n : Nat) (a : α),
      (l.insertIdx n a).map f = (l.map f).insertIdx n (f a)
  | l, 0, a => by simp
  | [], n + 1, a => by simp
  | x :: xs, n + 1, a => by
    simp only [List.insertIdx_succ_cons, List.map_cons]
    rw [map_insertIdx f xs n a]

theorem mem_take_idx {α : Type} (l : List α) (n : Nat) (a : α) (h : a ∈ l.take n) :
    ∃ k, k < n ∧ k < l.length ∧ l[k]? = some a := by
  obtain ⟨k, hk, he⟩ := List.getElem_of_mem h
  have hk2 : k < n ∧ k < l.length := by
    have := hk
    simp at this
    omega
  refine ⟨k, hk2.1, hk2.2, ?_⟩
  have h1 : (l.take n)[k]? = some a := by
    rw [List.getElem?_eq_getElem hk]
    exact congrArg some he
  rw [List.getElem?_take, if_pos hk2.1] at h1
  exact h1

theorem mem_drop_idx {α : Type} (l : List α) (n : Nat) (a : α) (h : a ∈ l.drop n) :
    ∃ k, n ≤ k ∧ k < l.length ∧ l[k]? = some a := by
  obtain ⟨k, hk, he⟩ := List.getElem_of_mem h
  have hk2 : n + k < l.length := by
    have := hk
    simp at this
    omega
  refine ⟨n + k, by omega, hk2, ?_⟩
  have h1 : (l.drop n)[k]? = some a := by
    rw [List.getElem?_eq_getElem hk]
    exact congrArg some he
  rw [List.getElem?_drop] at h1
  exact h1

theorem bufPrices_getElem? (b : Buffer) (k : Nat) (hk : k < b.len)
    (hb : b.len ≤ b.buf.length) :
    (bufPrices b)[k]? = some (pAt b k) := by
  have hl := bufPrices_length b hb
  rw [List.getElem?_eq_getElem (by omega)]
  rw [pAt, List.getD_eq_getElem?_getD, List.getElem?_eq_getElem (by omega)]
  rfl

/-- `Buffer::insert` at the sorted position of a new in-range price on a
non-full well-formed buffer preserves well-formedness; the level lands at
its index. -/
theorem insertAt_wf (N : Nat) (isBid : Bool) (b : Buffer) (idx : Nat) (lvl : Level)
    (hw : BufWF N isBid b) (hidx : idx ≤ b.len) (hroom : b.len < N)
    (hlo : i64Min < lvl.price) (hhi : lvl.price < i64Max)
    (hz1 : ∀ k, k < idx → better isBid (pAt b k) lvl.price)
    (hz2 : ∀ k, idx ≤ k → k < b.len → better isBid lvl.price (pAt b k)) :
    BufWF N isBid (b.insertAt N idx lvl) ∧
    bufEntries (b.insertAt N idx lvl) = (bufEntries b).insertIdx idx lvl ∧
    (b.insertAt N idx lvl).len = b.len + 1 := by
  obtain ⟨hlen, hbuf, hlim, hsort, hrange, hcache⟩ := hw
  have hb : b.len ≤ b.buf.length := by omega
  have hEl : (bufEntries b).length = b.len := by
    simp [bufEntries]
    omega
  have hPl : (bufPrices b).length = b.len := bufPrices_length b hb
  obtain ⟨hent, hlen2, hbuf2, hlim2⟩ := insertAt_entries N b idx lvl hidx hlen hbuf
  have hlen3 : (b.insertAt N idx lvl).len = b.len + 1 := by
    rw [hlen2]
    omega
  have hentries : bufEntries (b.insertAt N idx lvl) = (bufEntries b).insertIdx idx lvl := by
    rw [hent]
    exact List.take_of_length_le (by rw [List.length_insertIdx idx _ (by omega)]; omega)
  have hprices : bufPrices (b.insertAt N idx lvl)
      = (bufPrices b).insertIdx idx lvl.price := by
    rw [bufPrices, hentries, map_insertIdx]
    rfl
  have hsorted : ((bufPrices b).insertIdx idx lvl.price).Pairwise (better isBid) := by
    rw [insertIdx_split _ _ _ (by omega)]
    rw [List.pairwise_append]
    refine ⟨hsort.sublist (List.take_sublist _ _), ?_, ?_⟩
    · rw [List.pairwise_cons]
      refine ⟨?_, hsort.sublist (List.drop_sublist _ _)⟩
      intro q hq
      obtain ⟨k, hk1, hk2, hk3⟩ := mem_drop_idx _ _ _ hq
      rw [bufPrices_getElem? b k (by omega) hb] at hk3
      injection hk3 with hk3
      rw [← hk3]
      exact hz2 k hk1 (by omega)
    · intro a ha q hq
      obtain ⟨ka, hka1, hka2, hka3⟩ := mem_take_idx _ _ _ ha
      rw [bufPrices_getElem? b ka (by omega) hb] at hka3
      injection hka3 with hka3
      rcases List.mem_cons.mp hq with h | h
      · rw [h, ← hka3]
        exact hz1 ka hka1
      · obtain ⟨kq, hkq1, hkq2, hkq3⟩ := mem_drop_idx _ _ _ h
        rw [bufPrices_getElem? b kq (by omega) hb] at hkq3
        injection hkq3 with hkq3
        rw [← hka3, ← hkq3]
        exact pAt_sorted b isBid hsort hb (by omega) (by omega)
  have hrange2 : ∀ l2 ∈ bufEntries (b.insertAt N idx lvl),
      i64Min < l2.price ∧ l2.price < i64Max := by
    intro l2 hl2
    rw [hentries] at hl2
    rcases (List.mem_insertIdx (by omega)).mp hl2 with h | h
    · rw [h]
      exact ⟨hlo, hhi⟩
    · exact hrange l2 h
  have hcache2 : (b.insertAt N idx lvl).cachedFirst
      = (bufEntries (b.insertAt N idx lvl)).head? := by
    have hne2 : ∀ l2 ∈ bufEntries (b.insertAt N idx lvl), l2.price ≠ b.limit := by
      intro l2 hl2
      rw [hlim]
      exact ne_sideLim (hrange2 l2 hl2).1 (hrange2 l2 hl2).2
    by_cases hil : idx = b.len
    · have hres : b.insertAt N idx lvl = Buffer.invalidateCache
          { b with buf := b.buf.set b.len lvl, len := b.len + 1 } := by
        unfold Buffer.insertAt
        rw [if_neg (by omega)]
        rw [if_pos hil]
      rw [hres]
      refine invalidateCache_cachedFirst _ (by show b.len + 1 ≤ _; simp [hbuf]; omega) ?_
      intro l2 hl2
      have : l2 ∈ bufEntries (b.insertAt N idx lvl) := by
        rw [hres]
        exact hl2
      exact hne2 l2 this
    · by_cases hi0 : idx = 0
      · have hres : b.insertAt N idx lvl = Buffer.invalidateCache
            { b with buf := (lvl :: (b.buf.take b.len ++ b.buf.drop (b.len + 1))).take N,
                     len := min (b.len + 1) N } := by
          unfold Buffer.insertAt
          rw [if_neg (by omega), if_neg hil]
          rw [if_pos hi0]
        rw [hres]
        refine invalidateCache_cachedFirst _ ?_ ?_
        · show min (b.len + 1) N ≤ _
          simp [hbuf]
          omega
        · intro l2 hl2
          have : l2 ∈ bufEntries (b.insertAt N idx lvl) := by
            rw [hres]
            exact hl2
          exact hne2 l2 this
      · have hres : b.insertAt N idx lvl =
            ({ b with
               buf := (b.buf.take idx ++ lvl ::
                       ((b.buf.drop idx).take (b.len - idx) ++ b.buf.drop (b.len + 1))).take N,
               len := min (b.len + 1) N } : Buffer) := by
          unfold Buffer.insertAt
          rw [if_neg (by omega), if_neg hil]
          simp only [if_neg hi0]
        have hcf : (b.insertAt N idx lvl).cachedFirst = b.cachedFirst := by
          rw [hres]
        rw [hcf, hcache, hentries]
        rw [insertIdx_split _ _ _ (by omega)]
        rw [List.head?_eq_getElem?, List.head?_eq_getElem?, List.getElem?_append]
        rw [if_pos (by rw [List.length_take, hEl]; omega)]
        rw [List.getElem?_take, if_pos (by omega : 0 < idx)]
  refine ⟨⟨by omega, hbuf2, by rw [hlim2]; exact hlim, ?_, hrange2, hcache2⟩, hentries, hlen3⟩
  rw [hprices]
  exact hsorted

/-- A populated cache on a well-formed buffer is slot 0. -/
theorem cachedFirst_some (N : Nat) (isBid : Bool) (b : Buffer) (hw : BufWF N isBid b)
    (best : Level) (h : b.cachedFirst = some best) :
    0 < b.len ∧ best = b.getL 0 := by
  obtain ⟨hlen, hbuf, _, _, _, hcache⟩ := hw
  by_cases h0 : 0 < b.len
  · rw [hcache, entries_head? b h0 (by omega)] at h
    injection h with h2
    exact ⟨h0, h2.symm⟩
  · rw [hcache] at h
    have : bufEntries b = [] := by
      have : b.len = 0 := by omega
      simp [bufEntries, this]
    rw [this] at h
    cases h

/-- The price of slot 0 is the best stored price of a sorted buffer. -/
theorem getL_zero_best (N : Nat) (isBid : Bool) (b : Buffer) (hw : BufWF N isBid b)
    {q : Int} (hq : q ∈ bufPrices b) :
    q = (b.getL 0).price ∨ better isBid (b.getL 0).price q := by
  obtain ⟨hlen, hbuf, _, hsort, _, _⟩ := hw
  have hb : b.len ≤ b.buf.length := by omega
  have hlq : (bufPrices b).length = b.len := bufPrices_length b hb
  obtain ⟨k, hk, hkq⟩ := List.getElem_of_mem hq
  have hkD : pAt b k = q := by
    rw [pAt, List.getD_eq_getElem?_getD, List.getElem?_eq_getElem hk, hkq]
    rfl
  by_cases hk0 : k = 0
  · left
    rw [← hkD, hk0, pAt_eq b 0 (by omega) hb]
  · right
    have := pAt_sorted b isBid hsort hb (by omega : 0 < k) (by omega)
    rw [hkD, pAt_eq b 0 (by omega) hb] at this
    exact this

/-- The BBO sweep preserves well-formedness and leaves no same-side level
strictly better than the quote price. -/
theorem sweep_spec (N : Nat) (isBid : Bool) (p : Int) :
    ∀ (fuel : Nat) (b : Buffer), BufWF N isBid b → b.len ≤ fuel →
      BufWF N isBid (ABook.sweep p isBid fuel b) ∧
      ∀ q ∈ bufPrices (ABook.sweep p isBid fuel b), ¬ better isBid q p := by
  intro fuel
  induction fuel with
  | zero =>
    intro b hw hf
    refine ⟨hw, ?_⟩
    intro q hq
    have hlen0 : b.len = 0 := by omega
    have : bufEntries b = [] := by simp [bufEntries, hlen0]
    rw [ABook.sweep] at hq
    simp [bufPrices, this] at hq
  | succ n ih =>
    intro b hw hf
    cases hcf : b.first with
    | none =>
      simp only [ABook.sweep, hcf]
      refine ⟨hw, ?_⟩
      intro q hq
      obtain ⟨hlen, hbuf, _, _, _, hcache⟩ := hw
      rw [Buffer.first] at hcf
      rw [hcache] at hcf
      by_cases h0 : 0 < b.len
      · rw [entries_head? b h0 (by omega)] at hcf
        cases hcf
      · have hlen0 : b.len = 0 := by omega
        have he : bufEntries b = [] := by simp [bufEntries, hlen0]
        simp [bufPrices, he] at hq
    | some best =>
      have hbest := cachedFirst_some N isBid b hw best hcf
      simp only [ABook.sweep, hcf]
      by_cases hcond : ((isBid && decide (p < best.price)) ||
          (!isBid && decide (best.price < p))) = true
      · rw [if_pos hcond]
        have hrm := removeAt_spec N isBid b 0 hw hbest.1
        exact ih (b.removeAt 0).1 hrm.2.2.1 (by omega)
      · rw [if_neg hcond]
        refine ⟨hw, ?_⟩
        intro q hq hqp
        have hnb : ¬ better isBid best.price p := by
          intro hb2
          exact hcond ((betterCond isBid p best.price).mpr hb2)
        rcases getL_zero_best N isBid b hw hq with h | h
        · rw [hbest.2] at hnb
          rw [h] at hqp
          exact hnb hqp
        · rw [hbest.2] at hnb
          exact hnb (better_trans h hqp)

theorem setSide_ts (s : ABook) (side : Side) (b : Buffer) (best : Option Level) :
    (s.setSide side b best).ts = s.ts := by
  cases side <;> rfl

theorem setSide_seq (s : ABook) (side : Side) (b : Buffer) (best : Option Level) :
    (s.setSide side b best).seq = s.seq := by
  cases side <;> rfl

theorem processLvl2_ts (N : Nat) (s : ABook) (e : EventI) :
    (ABook.processLvl2 N s e).ts = s.ts := by
  unfold ABook.processLvl2
  dsimp only
  repeat' split
  all_goals (try rfl)
  all_goals (cases e.side <;> rfl)

theorem processLvl2_seq (N : Nat) (s : ABook) (e : EventI) :
    (ABook.processLvl2 N s e).seq = s.seq := by
  unfold ABook.processLvl2
  dsimp only
  repeat' split
  all_goals (try rfl)
  all_goals (cases e.side <;> rfl)

theorem processTrade_ts (s : ABook) (e : EventI) :
    (s.processTrade e).ts = s.ts := by
  unfold ABook.processTrade
  dsimp only
  repeat' split
  all_goals (try rfl)
  all_goals (cases e.side <;> rfl)

theorem processTrade_seq (s : ABook) (e : EventI) :
    (s.processTrade e).seq = s.seq := by
  unfold ABook.processTrade
  dsimp only
  repeat' split
  all_goals (try rfl)
  all_goals (cases e.side <;> rfl)

theorem processBBO_ts (N : Nat) (s : ABook) (e : EventI) :
    (ABook.processBBO N s e).ts = s.ts := by
  unfold ABook.processBBO
  cases e.side <;> rfl

theorem processBBO_seq (N : Nat) (s : ABook) (e : EventI) :
    (ABook.processBBO N s e).seq = s.seq := by
  unfold ABook.processBBO
  cases e.side <;> rfl

theorem getSide_setSide (s : ABook) (side : Side) (b : Buffer) (best : Option Level) :
    (s.setSide side b best).getSide side = (b, best) := by
  cases side <;> rfl

theorem getSide_gate (s : ABook) (side : Side) (t : Int) (q : Nat) :
    (({ s with ts := t, seq := q } : ABook).getSide side) = s.getSide side := by
  cases side <;> rfl

/-- C5 amended, the same-side guarantee actually provided by the code: an
admitted BBO event leaves no same-side level strictly better than its
price (for a well-formed side buffer).  The cross-side invariant of the
claim is refuted by `c5_crossed_book_reachable`. -/
theorem c5_bbo_restores_same_side_bound (N : Nat) (s : ABook) (e : EventI)
    (hkind : e.kind = .bbo)
    (hts : ¬ e.timestamp < s.ts)
    (hseq : e.seq = 0 ∨ s.seq = 0 ∨ e.seq = s.seq ∨ s.seq < e.seq)
    (hw : BufWF N e.side.isBuy (s.getSide e.side).1) :
    ∀ q ∈ bufPrices ((ABook.process N s e).getSide e.side).1,
      ¬ better e.side.isBuy q e.price := by
  intro q hq hqp
  have hstep : ABook.process N s e =
      ABook.processBBO N
        { s with ts := e.timestamp, seq := if e.seq ≠ 0 then e.seq else s.seq } e := by
    unfold ABook.process
    rw [if_neg hts, if_pos hseq, hkind]
  rw [hstep] at hq
  simp only [ABook.processBBO] at hq
  rw [getSide_setSide] at hq
  rw [getSide_gate] at hq
  obtain ⟨hw1, hbound⟩ := sweep_spec N e.side.isBuy e.price
    ((s.getSide e.side).1.len + 1) (s.getSide e.side).1 hw (by omega)
  set b1 := ABook.sweep e.price e.side.isBuy
    ((s.getSide e.side).1.len + 1) (s.getSide e.side).1 with hb1
  have hlenN : b1.len ≤ N := hw1.1
  have hbufN : b1.buf.length = N := hw1.2.1
  by_cases hsz : e.size = 0
  · rw [if_pos hsz] at hq
    cases hfi : b1.findIndex e.price e.side.isBuy with
    | ok idx =>
      rw [hfi] at hq
      dsimp only at hq
      have hidx := (findIndex_bounds b1 e.price e.side.isBuy).1 idx hfi
      have hrm := removeAt_spec N e.side.isBuy b1 idx hw1 hidx
      have hq2 : q ∈ bufPrices b1 := by
        have : q ∈ (bufPrices b1).eraseIdx idx → q ∈ bufPrices b1 :=
          fun hmem => (List.eraseIdx_sublist (bufPrices b1) idx).subset hmem
        apply this
        have hmap : bufPrices ((b1.removeAt idx).1)
            = ((bufEntries b1).eraseIdx idx).map Level.price := by
          rw [bufPrices, hrm.1]
        rw [hmap] at hq
        rw [show ((bufEntries b1).eraseIdx idx).map Level.price
              = (bufPrices b1).eraseIdx idx from ?_] at hq
        · exact hq
        · rw [bufPrices, List.eraseIdx_eq_take_drop_succ, List.eraseIdx_eq_take_drop_succ]
          simp [List.map_take, List.map_drop]
      exact hbound q hq2 hqp
    | err j =>
      rw [hfi] at hq
      dsimp only at hq
      exact hbound q hq hqp
  · rw [if_neg hsz] at hq
    cases hfi : b1.findIndex e.price e.side.isBuy with
    | ok idx =>
      rw [hfi] at hq
      dsimp only at hq
      rw [modifyAt_prices b1 idx e.size (by omega)] at hq
      exact hbound q hq hqp
    | err idx =>
      rw [hfi] at hq
      dsimp only at hq
      have hidx := (findIndex_bounds b1 e.price e.side.isBuy).2 idx hfi
      have hins := insertAt_entries N b1 idx ⟨e.price, e.size⟩ hidx hlenN hbufN
      rw [bufPrices, hins.1] at hq
      obtain ⟨l2, hl2mem, hl2q⟩ := List.mem_map.mp hq
      have hl2' : l2 ∈ (bufEntries b1).insertIdx idx ⟨e.price, e.size⟩ :=
        (List.take_sublist _ _).subset hl2mem
      have hEl : (bufEntries b1).length = b1.len := by
        simp [bufEntries]
        omega
      rcases (List.mem_insertIdx (by omega)).mp hl2' with h | h
      · rw [h] at hl2q
        rw [← hl2q] at hqp
        exact better_irrefl hqp
      · have : q ∈ bufPrices b1 := by
          rw [bufPrices, ← hl2q]
          exact List.mem_map_of_mem Level.price h
        exact hbound q this hqp

/-- Witness for the amended C5 at a concrete input: a fresh book of
capacity 2 receiving `BBO(Buy, 101, 5)`. -/
theorem c5_bbo_restores_same_side_bound_witness :
    ¬ better (Side.buy).isBuy 101 (101 : Int) :=
  c5_bbo_restores_same_side_bound 2 (ABook.new 2) ⟨.bbo, .buy, 101, 5, 0, 0⟩
    rfl (by decide) (Or.inl rfl) (by decide) 101 (by decide)

/-- C4 amended: an event rejected by the timestamp gate or by the sequence
gate leaves the whole state unchanged, and an admitted event whose
sequence id equals the watermark is processed (its timestamp is written). -/
theorem c4_unadmitted_events_leave_state_unchanged :
    ∀ (N : Nat) (s : ABook) (e : EventI),
      (e.timestamp < s.ts ∨ (e.seq ≠ 0 ∧ s.seq ≠ 0 ∧ e.seq < s.seq) →
        ABook.process N s e = s) ∧
      (s.ts ≤ e.timestamp → e.seq = s.seq → (ABook.process N s e).ts = e.timestamp) := by
  intro N s e
  constructor
  · rintro (h | ⟨h1, h2, h3⟩)
    · unfold ABook.process
      rw [if_pos h]
    · unfold ABook.process
      split
      · rfl
      · rw [if_neg (by omega)]
  · intro hts hseq
    unfold ABook.process
    rw [if_neg (not_lt.mpr hts), if_pos (Or.inr (Or.inr (Or.inl hseq)))]
    dsimp only
    cases e.kind
    · exact processTrade_ts _ _
    · exact processBBO_ts _ _ _
    · exact processLvl2_ts _ _ _

/-- Witness for C4: a stale-timestamp L2 event leaves a fresh book
unchanged, and an admitted equal-sequence event sets `ts`. -/
theorem c4_unadmitted_events_leave_state_unchanged_witness :
    ABook.process 5 (ABook.new 5) (mkL2 .buy 100 1 (-1) 0) = ABook.new 5 ∧
    (ABook.process 5 (ABook.new 5) (mkL2 .buy 100 1 7 0)).ts = 7 := by
  constructor
  · exact (c4_unadmitted_events_leave_state_unchanged 5 (ABook.new 5)
      (mkL2 .buy 100 1 (-1) 0)).1 (Or.inl (by decide))
  · exact (c4_unadmitted_events_leave_state_unchanged 5 (ABook.new 5)
      (mkL2 .buy 100 1 7 0)).2 (by decide) (by decide)

/-! ### C5 -/

/-- The array book after `L2(Sell, 101, 1)` then `L2(Buy, 200, 1)`. -/
def crossedBook : ABook :=
  ABook.process 5 (ABook.process 5 (ABook.new 5) (mkL2 .sell 101 1 0 0)) (mkL2 .buy 200 1 0 0)

/-- C5 counterexample: two admitted L2 events produce a state where both
bests are present and `best_bid.price > best_ask.price`; no mutation path
removes opposite-side levels, so the no-cross invariant is not preserved. -/
theorem c5_crossed_book_reachable :
    crossedBook.bestBid = some ⟨200, 1⟩ ∧
    crossedBook.bestAsk = some ⟨101, 1⟩ ∧
    ¬ (200 : Int) < 101 := by decide

/-! ### C6 -/

/-- C6: the claim fails for addition on the primary target.  The `Add`
impl of `FixedDecimal` is the SIMD `_mm_add_epi64` on `x86_64`, which
wraps: `MAX + 1` yields raw `i64::MIN`, not the saturated `i64::MAX`
required by the claim (and produced by the non-x86 fallback and by
`Sub`/`SubAssign`). -/
theorem c6_x86_add_wraps_not_saturates :
    FixedDec.addSimd fdMax ⟨1⟩ = ⟨i64Min⟩ ∧
    FixedDec.addPortable fdMax ⟨1⟩ = ⟨i64Max⟩ ∧
    FixedDec.addSimd fdMax ⟨1⟩ ≠ FixedDec.addPortable fdMax ⟨1⟩ ∧
    FixedDec.sub fdMin ⟨1⟩ = ⟨i64Min⟩ := by decide

/-! ### C7 -/

/-- The array book holding only the bid level `(100, 1)`. -/
def oneSidedBook : ABook := ABook.process 5 (ABook.new 5) (mkL2 .buy 100 1 0 0)

/-- C7: the claim fails: on a book whose ask side is empty and whose bid
side is not, `mid_price` is `ZERO` and `calculate_metrics` evaluates
`(mid_price − bid_prices[last]) / mid_price` without any `mid_price > 0`
guard, i.e. it divides by zero (`none`, the decimal layer panic) instead
of returning `ZERO` for the price impact. -/
theorem c7_metrics_divide_by_zero_on_one_sided_book :
    bufEntries oneSidedBook.bids = [⟨100, 1⟩] ∧
    bufEntries oneSidedBook.asks = [] ∧
    ABook.calcMetrics oneSidedBook 1 = none := by decide

/-! ### C8 -/

theorem getSide_opposite_setSide (s : ABook) (side : Side) (b : Buffer) (best : Option Level) :
    (s.setSide side b best).getSide side.opposite = s.getSide side.opposite := by
  cases side <;> rfl

theorem getSide_moved (x : ABook) (side : Side) :
    (({ x with hasMoved := true } : ABook)).getSide side = x.getSide side := by
  cases side <;> rfl

theorem moved_ts (x : ABook) : ({ x with hasMoved := true } : ABook).ts = x.ts := rfl

theorem moved_seq (x : ABook) : ({ x with hasMoved := true } : ABook).seq = x.seq := rfl

theorem getSide_fields (x : ABook) (t : Int) (q : Nat) (m : Bool) (side : Side) :
    (ABook.mk x.bestBid x.bestAsk x.bids x.asks t q m).getSide side = x.getSide side := by
  cases side <;> rfl

/-- An event carrying the book's current timestamp and sequence id zero
passes both admission gates, and an L2 event is dispatched to
`process_lvl2` with the header state otherwise unchanged. -/
theorem process_admit_l2 (N : Nat) (s : ABook) (e : EventI) (hk : e.kind = .l2)
    (ht : e.timestamp = s.ts) (hq : e.seq = 0) :
    ABook.process N s e = ABook.processLvl2 N s e := by
  unfold ABook.process
  rw [ht, hq, hk]
  rw [if_neg (lt_irrefl s.ts), if_pos (Or.inl rfl), if_neg (by decide : ¬ (0 : Nat) ≠ 0)]

/-- The observable footprint of one side of the array book: the stored
levels, the length, the cached first slot, the cached best, the whole
opposite side, and the admission header (`ts`, `sequence_id`). -/
def sideObs (s : ABook) (side : Side) :
    List Level × Nat × Option Level × Option Level × (Buffer × Option Level) × Int × Nat :=
  (bufEntries (s.getSide side).1, (s.getSide side).1.len, (s.getSide side).1.cachedFirst,
   (s.getSide side).2, s.getSide side.opposite, s.ts, s.seq)

/-- The array book holding the single bid level `(100, 5)`. -/
def c8Base : ABook := ABook.process 4 (ABook.new 4) (mkL2 .buy 100 5 0 0)

/-- `c8Base` after `L2(Buy, 100, 2)` then `L2(Buy, 100, 0)`. -/
def c8After : ABook :=
  ABook.process 4 (ABook.process 4 c8Base (mkL2 .buy 100 2 0 0)) (mkL2 .buy 100 0 0 0)

/-- C8 counterexample: on a book already quoting the price, the first L2
event of the round trip overwrites the resting size and the second removes
the level entirely, so the prior state is not restored. -/
theorem c8_l2_roundtrip_not_restoring_on_occupied_price :
    bufEntries c8Base.bids = [⟨100, 5⟩] ∧ c8Base.bestBid = some ⟨100, 5⟩ ∧
    bufEntries c8After.bids = [] ∧ c8After.bestBid = none ∧
    c8After ≠ c8Base := by decide

/-- C8 (amended): the L2 round trip does restore the book when the traded
price is fresh.  For a well-formed side whose cached best is consistent,
if `price` is absent from the side, in `i64` range, the buffer has room,
the side stays below the branchless-search threshold, and both events
carry the current timestamp and sequence id zero, then
`L2(side, price, size≠0)` followed by `L2(side, price, 0)` restores every
observable of the book (levels, length, cached first, cached best, the
opposite side, `ts`, `sequence_id`); only `has_moved` may be set. -/
theorem c8_l2_roundtrip_fresh_price_restores_book
    (N : Nat) (s : ABook) (side : Side) (price size : Int)
    (hw : BufWF N side.isBuy (s.getSide side).1)
    (hbest : (s.getSide side).2 = (bufEntries (s.getSide side).1).head?)
    (hnp : ∀ k, k < (s.getSide side).1.len → pAt (s.getSide side).1 k ≠ price)
    (hlo : i64Min < price) (hhi : price < i64Max)
    (hroom : (s.getSide side).1.len < N)
    (hsmall : (s.getSide side).1.len + 1 < 32)
    (hsz : size ≠ 0) :
    sideObs (ABook.process N (ABook.process N s ⟨.l2, side, price, size, s.ts, 0⟩)
      ⟨.l2, side, price, 0, s.ts, 0⟩) side = sideObs s side := by
  obtain ⟨hlen0, hbuf0, hlim0, hsort0, hrange0, hcache0⟩ := hw
  have hwA : BufWF N side.isBuy (s.getSide side).1 :=
    ⟨hlen0, hbuf0, hlim0, hsort0, hrange0, hcache0⟩
  have hPl : (bufPrices (s.getSide side).1).length = (s.getSide side).1.len :=
    bufPrices_length _ (by omega)
  obtain ⟨idx, hfi, hidxle, hz1, hz2⟩ :=
    findIndex_absent N side.isBuy (s.getSide side).1 hwA price hnp (by omega)
  obtain ⟨hw2, hent2, hlen2⟩ :=
    insertAt_wf N side.isBuy (s.getSide side).1 idx ⟨price, size⟩ hwA hidxle hroom hlo hhi
      hz1 hz2
  have hw2' := hw2
  obtain ⟨hlen2', hbuf2', hlim2', hsort2', hrange2', hcache2'⟩ := hw2'
  have hpAt2 : pAt ((s.getSide side).1.insertAt N idx ⟨price, size⟩) idx = price := by
    have hps : bufPrices ((s.getSide side).1.insertAt N idx ⟨price, size⟩)
        = (bufPrices (s.getSide side).1).insertIdx idx price := by
      rw [bufPrices, hent2, map_insertIdx]
      rfl
    rw [pAt, hps, insertIdx_split _ _ _ (by omega)]
    rw [List.getD_eq_getElem?_getD, List.getElem?_append, List.length_take]
    rw [if_neg (by omega)]
    have h0 : idx - min idx (bufPrices (s.getSide side).1).length = 0 := by omega
    rw [h0]
    simp
  have hfi2 : ((s.getSide side).1.insertAt N idx ⟨price, size⟩).findIndex price side.isBuy
      = .ok idx :=
    findIndex_present N side.isBuy _ hw2 price idx (by omega) hpAt2 (by omega)
  obtain ⟨hent3, hlen3, hw3, hrem3⟩ :=
    removeAt_spec N side.isBuy ((s.getSide side).1.insertAt N idx ⟨price, size⟩) idx hw2
      (by omega)
  obtain ⟨hlen3', hbuf3', hlim3', hsort3', hrange3', hcache3'⟩ := hw3
  have hentR : bufEntries (((s.getSide side).1.insertAt N idx ⟨price, size⟩).removeAt idx).1
      = bufEntries (s.getSide side).1 := by
    rw [hent3, hent2, List.eraseIdx_insertIdx]
  have hlenR : (((s.getSide side).1.insertAt N idx ⟨price, size⟩).removeAt idx).1.len
      = (s.getSide side).1.len := by omega
  have hcfR : (((s.getSide side).1.insertAt N idx ⟨price, size⟩).removeAt idx).1.cachedFirst
      = (s.getSide side).1.cachedFirst := by
    rw [hcache3', hentR, hcache0]
  have hfirstR : (((s.getSide side).1.insertAt N idx ⟨price, size⟩).removeAt idx).1.first
      = (s.getSide side).2 := by
    rw [Buffer.first, hcache3', hentR, hbest]
  have hremP : (((s.getSide side).1.insertAt N idx ⟨price, size⟩).removeAt idx).2 = price := by
    rw [hrem3,
      ← pAt_eq ((s.getSide side).1.insertAt N idx ⟨price, size⟩) idx (by omega) (by omega),
      hpAt2]
  rw [process_admit_l2 N s ⟨.l2, side, price, size, s.ts, 0⟩ rfl rfl rfl]
  have hL1 : ABook.processLvl2 N s ⟨.l2, side, price, size, s.ts, 0⟩
      = s.setSide side ((s.getSide side).1.insertAt N idx ⟨price, size⟩)
          (if idx = 0 then ((s.getSide side).1.insertAt N idx ⟨price, size⟩).first
           else (s.getSide side).2) := by
    simp only [ABook.processLvl2]
    rw [if_neg hsz, hfi]
  rw [hL1]
  rw [process_admit_l2 N
    (s.setSide side ((s.getSide side).1.insertAt N idx ⟨price, size⟩)
      (if idx = 0 then ((s.getSide side).1.insertAt N idx ⟨price, size⟩).first
       else (s.getSide side).2))
    ⟨.l2, side, price, 0, s.ts, 0⟩ rfl (by rw [setSide_ts]) rfl]
  simp only [ABook.processLvl2, getSide_setSide]
  rw [if_pos trivial]
  simp only [hfi2]
  by_cases hidx0 : idx = 0
  · simp only [if_pos hidx0]
    have hb2f : ((s.getSide side).1.insertAt N idx ⟨price, size⟩).first
        = some ⟨price, size⟩ := by
      rw [Buffer.first, hcache2', hent2, hidx0]
      simp
    simp only [hb2f]
    rw [if_pos hremP]
    simp only [sideObs, getSide_fields, getSide_moved, getSide_setSide,
      getSide_opposite_setSide, setSide_ts, setSide_seq, Prod.mk.injEq]
    and_intros <;> first | rfl | assumption | trivial
  · simp only [if_neg hidx0]
    rcases hB : (s.getSide side).2 with _ | bl
    · simp only [hB]
      simp only [sideObs, getSide_fields, getSide_setSide, getSide_opposite_setSide,
        setSide_ts, setSide_seq, Prod.mk.injEq]
      and_intros <;> first | rfl | assumption | trivial | exact hB.symm
    · have hb0 : 0 < (s.getSide side).1.len := by omega
      have hblp : bl.price ≠ price := by
        have h1 : (s.getSide side).2 = some ((s.getSide side).1.getL 0) := by
          rw [hbest, entries_head? _ hb0 (by omega)]
        rw [hB] at h1
        injection h1 with h2
        rw [h2, ← pAt_eq _ 0 hb0 (by omega)]
        exact hnp 0 hb0
      have hcond :
          ¬ ((((s.getSide side).1.insertAt N idx ⟨price, size⟩).removeAt idx).2 = bl.price) := by
        rw [hremP]
        exact fun hc => hblp hc.symm
      simp only [hB]
      rw [if_neg hcond]
      simp only [sideObs, getSide_fields, getSide_setSide, getSide_opposite_setSide,
        setSide_ts, setSide_seq, Prod.mk.injEq]
      and_intros <;> first | rfl | assumption | trivial | exact hB.symm

/-- The amended C8 round trip at a concrete instance: a fresh bid side,
`L2(Buy, 100, 1)` then `L2(Buy, 100, 0)`. -/
theorem c8_l2_roundtrip_fresh_price_restores_book_witness :
    BufWF 4 (Side.isBuy .buy) ((ABook.new 4).getSide .buy).1 ∧
    sideObs (ABook.process 4 (ABook.process 4 (ABook.new 4)
        ⟨.l2, .buy, 100, 1, (ABook.new 4).ts, 0⟩)
      ⟨.l2, .buy, 100, 0, (ABook.new 4).ts, 0⟩) .buy = sideObs (ABook.new 4) .buy :=
  ⟨by decide,
   c8_l2_roundtrip_fresh_price_restores_book 4 (ABook.new 4) .buy 100 1 (by decide)
     (by decide) (by decide) (by decide) (by decide) (by decide) (by decide) (by decide)⟩

/-! ### C9 -/

/-- A strictly ascending ask buffer with 32 levels `(10·(i+1), 1)`;
`len = 32` takes the branchless path of `find_index`. -/
def askBuf32 : Buffer :=
  ⟨(List.range 32).map (fun i => ⟨10 * ((i : Int) + 1), 1⟩), i64Max, 32, some ⟨10, 1⟩⟩

/-- C9: the claim fails.  On a strictly sorted 32-level ask buffer the
price 20 is present at slot 1 and passes every fast-path bounds check; the
plain binary search returns `Ok(1)` but the branchless search (and hence
`find_index`, since `len ≥ 32`) returns `Err(1)`: its final probe reads
`buf[left]` instead of `buf[left + 1]`, so it reports a present price as
absent and hands back an insertion index at an occupied slot. -/
theorem c9_branchless_search_misses_present_price :
    (bufPrices askBuf32).Pairwise (· < ·) ∧
    askBuf32.len = 32 ∧
    (askBuf32.getL 1).price = 20 ∧
    askBuf32.searchLoop 20 false 0 32 = .ok 1 ∧
    askBuf32.branchlessSearch 20 false = .err 1 ∧
    askBuf32.findIndex 20 false = .err 1 := by decide

/-! ### C10 -/

/-- C10: confirmed.  `is_zero` masks out the sign bit, so
`is_zero(MIN) = true` although `MIN ≠ ZERO`; consequently multiplication
by `MIN` short-circuits to `ZERO` for every operand, and division or
remainder by `MIN` takes the `Division by zero` panic path (`none`). -/
theorem c10_min_is_zero_semantics :
    FixedDec.isZero fdMin = true ∧ fdMin ≠ fdZero ∧
    ∀ x : FixedDec,
      FixedDec.mul x fdMin = fdZero ∧
      FixedDec.div x fdMin = none ∧
      FixedDec.rem x fdMin = none := by
  refine ⟨by decide, by decide, fun x => ?_⟩
  have h : FixedDec.isZero fdMin = true := by decide
  refine ⟨?_, ?_, ?_⟩
  · unfold FixedDec.mul
    rw [h]
    simp
  · unfold FixedDec.div
    rw [h]
    simp
  · unfold FixedDec.rem
    rw [h]
    simp

end Orderbook
